import Mathlib

/-!
Verification of the chandas metre-recognition pipeline.

The definitions below are a shallow embedding of `src/chandas/syllabize.py`,
`src/chandas/svat/data/metrical_data.py`, `src/chandas/__init__.py` and
`src/rl_env/meter_verifier.py`.  Devanagari text is represented as `List Char`
(Lean `Char` is a Unicode scalar value, matching Python's `str` code points).

The Python code draws its character classes (`PATTERN_INDEPENDENT_VOWEL`,
`PATTERN_VYANJANA`, `PATTERN_DEPENDENT_VOWEL`, `PATTERN_YOGAVAAHA`,
`PATTERN_ACCENT`, `PATTERN_CONSONANT_MODIFIER`, `PATTERN_VYANJANA_WITHOUT_VOWEL`,
the `GURU_*` subclasses, `PATTERN_OM` and `do_vyanjana_svara_join`) from the
external `indic_transliteration.sanscript` Devanagari scheme, which is not part
of this repository.  Those classes are modelled here as explicit Unicode
code-point ranges of the Devanagari block, following the spec's description
(independent vowels, dependent vowel signs, consonants, nukta, yogavāha =
anusvāra/visarga/candrabindu, Vedic accents) and the behaviour documented by
the repository's own doc strings and tests.
-/

namespace Chandas

/-- Devanagari virāma (U+094D). -/
def virAma : Char := Char.ofNat 0x94D

/-- Devanagari nukta (U+093C), the consonant modifier. -/
def nukta : Char := Char.ofNat 0x93C

/-- Devanagari candrabindu (U+0901). -/
def candrabindu : Char := Char.ofNat 0x901

/-- Devanagari OM ligature (U+0950), `PATTERN_OM`. -/
def omChar : Char := Char.ofNat 0x950

/-- Independent vowels (`PATTERN_INDEPENDENT_VOWEL`): U+0904–U+0914,
U+0960–U+0961, U+0972–U+0977. -/
def isIV (c : Char) : Bool :=
  (0x904 ≤ c.toNat && c.toNat ≤ 0x914) ||
  (0x960 ≤ c.toNat && c.toNat ≤ 0x961) ||
  (0x972 ≤ c.toNat && c.toNat ≤ 0x977)

/-- Consonants (`PATTERN_VYANJANA`): U+0915–U+0939, U+0958–U+095F,
U+0978–U+097F. -/
def isVy (c : Char) : Bool :=
  (0x915 ≤ c.toNat && c.toNat ≤ 0x939) ||
  (0x958 ≤ c.toNat && c.toNat ≤ 0x95F) ||
  (0x978 ≤ c.toNat && c.toNat ≤ 0x97F)

/-- Dependent vowel signs / mātrās (`PATTERN_DEPENDENT_VOWEL`):
U+093A–U+093B, U+093E–U+094C, U+0955–U+0957, U+0962–U+0963. -/
def isDV (c : Char) : Bool :=
  (0x93A ≤ c.toNat && c.toNat ≤ 0x93B) ||
  (0x93E ≤ c.toNat && c.toNat ≤ 0x94C) ||
  (0x955 ≤ c.toNat && c.toNat ≤ 0x957) ||
  (0x962 ≤ c.toNat && c.toNat ≤ 0x963)

/-- Yogavāha marks (`PATTERN_YOGAVAAHA`): candrabindu U+0901, anusvāra U+0902,
visarga U+0903. -/
def isYog (c : Char) : Bool :=
  0x901 ≤ c.toNat && c.toNat ≤ 0x903

/-- Vedic accents (`PATTERN_ACCENT`): U+0951–U+0954. -/
def isAcc (c : Char) : Bool :=
  0x951 ≤ c.toNat && c.toNat ≤ 0x954

/-- Long independent vowels (`PATTERN_GURU_INDEPENDENT_VOWEL`):
ā ī ū e ai o au ṝ ḹ. -/
def isGuruIV (c : Char) : Bool :=
  c.toNat = 0x906 || c.toNat = 0x908 || c.toNat = 0x90A ||
  (0x90F ≤ c.toNat && c.toNat ≤ 0x910) ||
  (0x913 ≤ c.toNat && c.toNat ≤ 0x914) ||
  (0x960 ≤ c.toNat && c.toNat ≤ 0x961)

/-- Long dependent vowel signs (`PATTERN_GURU_DEPENDENT_VOWEL`):
ā ī ū ṝ e ai o au ḹ mātrās. -/
def isGuruDV (c : Char) : Bool :=
  c.toNat = 0x93E || c.toNat = 0x940 || c.toNat = 0x942 || c.toNat = 0x944 ||
  (0x947 ≤ c.toNat && c.toNat ≤ 0x948) ||
  (0x94B ≤ c.toNat && c.toNat ≤ 0x94C) ||
  c.toNat = 0x963

/-- Weight-adding yogavāha marks (`PATTERN_GURU_YOGAVAAHA`); per the spec all
three yogavāha marks add weight. -/
def isGuruYog (c : Char) : Bool := isYog c

/-- A character kept by the cleaning step of `get_syllables`: member of one of
the six retained classes (independent vowels, consonants, dependent vowels,
yogavāhas, accents, consonant modifiers nukta/virāma). -/
def isSupported (c : Char) : Bool :=
  isIV c || isVy c || isDV c || isYog c || isAcc c || c = nukta || c = virAma

/-- Independent vowel or consonant: the mandatory vowel-bearing base of the
syllable regex `[IV VY]`. -/
def isIVVY (c : Char) : Bool := isIV c || isVy c

/-- The dependent-vowel sign (mātrā) corresponding to an independent vowel, as
`do_vyanjana_svara_join` produces it; the inherent vowel `a` (and vowels
without a mātrā) map to nothing. -/
def matraOf (c : Char) : List Char :=
  if c.toNat = 0x905 || c.toNat = 0x904 then []
  else if c.toNat = 0x906 then [Char.ofNat 0x93E]
  else if c.toNat = 0x907 then [Char.ofNat 0x93F]
  else if c.toNat = 0x908 then [Char.ofNat 0x940]
  else if c.toNat = 0x909 then [Char.ofNat 0x941]
  else if c.toNat = 0x90A then [Char.ofNat 0x942]
  else if c.toNat = 0x90B then [Char.ofNat 0x943]
  else if c.toNat = 0x960 then [Char.ofNat 0x944]
  else if c.toNat = 0x90C then [Char.ofNat 0x962]
  else if c.toNat = 0x961 then [Char.ofNat 0x963]
  else if c.toNat = 0x90D then [Char.ofNat 0x945]
  else if c.toNat = 0x90E then [Char.ofNat 0x946]
  else if c.toNat = 0x90F then [Char.ofNat 0x947]
  else if c.toNat = 0x910 then [Char.ofNat 0x948]
  else if c.toNat = 0x911 then [Char.ofNat 0x949]
  else if c.toNat = 0x912 then [Char.ofNat 0x94A]
  else if c.toNat = 0x913 then [Char.ofNat 0x94B]
  else if c.toNat = 0x914 then [Char.ofNat 0x94C]
  else []

/-- Expansion of the OM ligature: `regex.sub(PATTERN_OM, "ओम्", ...)`, i.e.
each ॐ becomes o + m + virāma. -/
def omExpand : List Char → List Char
  | [] => []
  | c :: rest =>
    if c = omChar then Char.ofNat 0x913 :: Char.ofNat 0x92E :: virAma :: omExpand rest
    else c :: omExpand rest

/-- Removal of all characters outside the six supported classes:
`regex.sub("([^IV VY DV YOG ACC MOD])", "", ...)`. -/
def filterSupported (cs : List Char) : List Char := cs.filter isSupported

/-- Space removal: `cleaned_phrase.replace(" ", "")` (a no-op after
`filterSupported`, kept for faithfulness to the source). -/
def removeSpaces (cs : List Char) : List Char := cs.filter (fun c => c ≠ ' ')

/-- One step of the vyañjana–svara join: does `cs` start with a dead consonant
(consonant, optional nukta, virāma) immediately followed by an independent
vowel?  If so, return the joined replacement and the rest, mirroring
`do_vyanjana_svara_join` (consonant part + mātrā of the vowel). -/
def joinAt : List Char → Option (List Char × List Char)
  | c :: d :: e :: rest =>
    if isVy c && d = virAma && isIV e then some (c :: matraOf e, rest)
    else if isVy c && d = nukta && e = virAma then
      match rest with
      | v :: rest2 => if isIV v then some (c :: nukta :: matraOf v, rest2) else none
      | [] => none
    else none
  | _ => none

/-- The sandhi-join substitution
`regex.sub("(VYANJANA_WITHOUT_VOWEL)([INDEPENDENT_VOWEL])", do_vyanjana_svara_join, ...)`:
scan left to right, replacing each non-overlapping dead-consonant +
independent-vowel pair.  Structural recursion on a fuel bounded by the input
length; each step consumes at least one input character, so the fuel is
adequate. -/
def vsJoinAux : Nat → List Char → List Char
  | 0, cs => cs
  | _ + 1, [] => []
  | f + 1, c :: rest =>
    match joinAt (c :: rest) with
    | some (rep, rest2) => rep ++ vsJoinAux f rest2
    | none => c :: vsJoinAux f rest

/-- Left-to-right sandhi-join pass over a whole string. -/
def vyanjanaSvaraJoin (cs : List Char) : List Char := vsJoinAux cs.length cs

/-- The cleaning pipeline of `get_syllables` (syllabize.py lines 51–55):
OM expansion, removal of out-of-class characters, space removal, then the
vyañjana–svara sandhi join. -/
def cleanChars (cs : List Char) : List Char :=
  vyanjanaSvaraJoin (removeSpaces (filterSupported (omExpand cs)))

/-- One `PATTERN_VYANJANA_WITHOUT_VOWEL` unit: a consonant, an optional nukta,
and a virāma.  Returns the unit and the rest on success. -/
def takeVWV : List Char → Option (List Char × List Char)
  | c :: d :: rest =>
    if isVy c && d = virAma then some ([c, virAma], rest)
    else if isVy c && d = nukta then
      match rest with
      | e :: rest2 => if e = virAma then some ([c, nukta, virAma], rest2) else none
      | [] => none
    else none
  | _ => none

/-- One unit of the trailing-coda group `(VYANJANA_WITHOUT_VOWEL ँ?)`:
a dead consonant optionally followed by a candrabindu. -/
def takeCodaUnit (cs : List Char) : Option (List Char × List Char) :=
  match takeVWV cs with
  | some (u, r) =>
    match r with
    | e :: r2 => if e = candrabindu then some (u ++ [e], r2) else some (u, r)
    | [] => some (u, [])
  | none => none

/-- Greedy maximal run of coda units `(VYANJANA_WITHOUT_VOWEL ँ?)*`.
Fuel-bounded structural recursion; fuel equal to the input length is
adequate since every unit consumes at least two characters. -/
def takeCoda : Nat → List Char → List Char × List Char
  | 0, cs => ([], cs)
  | f + 1, cs =>
    match takeCodaUnit cs with
    | some (u, r) =>
      let p := takeCoda f r
      (u ++ p.1, p.2)
    | none => ([], cs)

/-- Drop a single optional leading nukta (`़?`). -/
def skipNukta : List Char → List Char × List Char
  | [] => ([], [])
  | d :: r => if d = nukta then ([d], r) else ([], d :: r)

/-- The part of the syllable regex after the mandatory `[IV VY]` character:
`़? [DV]* [YOG]* [ACC]* (VWV ँ?)*`, all greedy.  Returns the consumed tail and
the remainder. -/
def buildTail (rest : List Char) : List Char × List Char :=
  let n := skipNukta rest
  let dv := (n.2.takeWhile isDV, n.2.dropWhile isDV)
  let yg := (dv.2.takeWhile isYog, dv.2.dropWhile isYog)
  let ac := (yg.2.takeWhile isAcc, yg.2.dropWhile isAcc)
  let cd := takeCoda ac.2.length ac.2
  (n.1 ++ dv.1 ++ yg.1 ++ ac.1 ++ cd.1, cd.2)

/-- The syllable regex of `get_syllables` (syllabize.py line 59):
`(VWV)* [IV VY] ़? [DV]* [YOG]* [ACC]* (VWV ँ?)*`, matched at the start of the
string with the greedy-with-backtracking semantics of the `regex` engine.
The onset `(VWV)*` consumes dead-consonant units greedily; if afterwards no
`[IV VY]` character follows, the engine gives back the last unit, whose
consonant then serves as the mandatory character (its virāma stays
unconsumed).  Returns the matched prefix and the remainder, or `none` when
the pattern cannot match (no `[IV VY]` character reachable).  Fuel-bounded;
fuel equal to the input length is adequate. -/
def matchCore : Nat → List Char → Option (List Char × List Char)
  | 0, _ => none
  | f + 1, cs =>
    match takeVWV cs with
    | some (u, rest) =>
      match matchCore f rest with
      | some (p, r) => some (u ++ p, r)
      | none => some (u.dropLast, virAma :: rest)
    | none =>
      match cs with
      | c :: rest =>
        if isIVVY c then
          let t := buildTail rest
          some (c :: t.1, t.2)
        else none
      | [] => none

/-- The syllable match attempted at the current scan position. -/
def matchSyllable (cs : List Char) : Option (List Char × List Char) :=
  matchCore cs.length cs

/-- The scan loop of `get_syllables` (lines 57–67): repeatedly match a
syllable at the front of the remaining cleaned phrase; on failure raise
`ValueError` carrying the unconsumed remainder; append non-empty matches.
Fuel-bounded; fuel equal to the input length is adequate since every matched
syllable is non-empty. -/
def scanSyllables : Nat → List Char → Except (List Char) (List (List Char))
  | _, [] => .ok []
  | 0, cs => .error cs
  | f + 1, cs =>
    match matchSyllable cs with
    | none => .error cs
    | some (p, r) =>
      if p.isEmpty then scanSyllables f r
      else
        match scanSyllables f r with
        | .ok ps => .ok (p :: ps)
        | .error e => .error e

/-- Split a Devanagari string into syllables:
`syllabize.get_syllables`.  Returns the syllable list, or the unconsumed
remainder of the cleaned phrase in the error case (the `ValueError` message
carries exactly this remainder). -/
def get_syllables (s : String) : Except String (List String) :=
  let cl := cleanChars s.data
  match scanSyllables cl.length cl with
  | .ok ps => .ok (ps.map (fun p => String.mk p))
  | .error r => .error (String.mk r)

/-- Any character of one of the three guru classes
(`PATTERN_GURU_INDEPENDENT_VOWEL`, `PATTERN_GURU_DEPENDENT_VOWEL`,
`PATTERN_GURU_YOGAVAAHA`). -/
def isGuruChar (c : Char) : Bool := isGuruIV c || isGuruDV c || isYog c

/-- First guru rule of `get_syllable_weight` (line 73):
`regex.findall("[GURU_IV GURU_DV GURU_YOG]", syllable)` is non-empty. -/
def hasGuru (cs : List Char) : Bool := cs.any isGuruChar

/-- Does the closed-syllable regex of `get_syllable_weight` (line 75),
`[IV VY] ़? [DV]* [YOG]* [ACC]* (VWV)+`, match at the head of `cs`?
Because the character classes are pairwise disjoint and a `VWV` unit starts
with a consonant, a match exists at this position exactly when after skipping
the optional nukta and the three starred classes greedily, at least one `VWV`
unit follows. -/
def closedAt : List Char → Bool
  | [] => false
  | c :: rest =>
    isIVVY c &&
      (takeVWV ((((skipNukta rest).2.dropWhile isDV).dropWhile isYog).dropWhile isAcc)).isSome

/-- Second guru rule: `regex.findall` of the closed-syllable regex is
non-empty, i.e. it matches at some position of the syllable. -/
def hasClosedAux : List Char → Bool
  | [] => false
  | c :: rest => closedAt (c :: rest) || hasClosedAux rest

/-- Weight of one syllable, over characters. -/
def weightChars (cs : List Char) : String :=
  if hasGuru cs then "G"
  else if hasClosedAux cs then "G"
  else "L"

/-- `syllabize.get_syllable_weight`: "G" for guru, "L" for laghu. -/
def get_syllable_weight (s : String) : String := weightChars s.data

/-- `syllabize.to_weight_list`: weights of all syllables of a line. -/
def to_weight_list (s : String) : Except String (List String) :=
  match get_syllables s with
  | .ok sylls => .ok (sylls.map get_syllable_weight)
  | .error e => .error e

/-- `syllabize.is_vyanjanaanta`: ends in virāma, or in one of the three fixed
semivowel + candrabindu sequences य्ँ, व्ँ, ल्ँ. -/
def endsDeadChars (cs : List Char) : Bool :=
  match cs.reverse with
  | v :: _ =>
    v = virAma ||
      (match cs.reverse with
       | b :: w :: c :: _ =>
         b = candrabindu && w = virAma &&
           (c.toNat = 0x92F || c.toNat = 0x935 || c.toNat = 0x932)
       | _ => false)
  | [] => false

/-- String-level `is_vyanjanaanta`. -/
def is_vyanjanaanta (s : String) : Bool := endsDeadChars s.data

/-- Equality of `Except` values is decidable when it is for both components. -/
instance exceptDecEq {ε α : Type} [DecidableEq ε] [DecidableEq α] :
    DecidableEq (Except ε α) := fun a b =>
  match a, b with
  | .ok x, .ok y => if h : x = y then .isTrue (by rw [h]) else .isFalse (by simp [h])
  | .error x, .error y => if h : x = y then .isTrue (by rw [h]) else .isFalse (by simp [h])
  | .ok _, .error _ => .isFalse (by simp)
  | .error _, .ok _ => .isFalse (by simp)

example : get_syllables "बिक्रममेरोनामहो" = .ok ["बिक्", "र", "म", "मे", "रो", "ना", "म", "हो"] := by
  decide

example : to_weight_list "बिक्रममेरोनामहो" = .ok ["G", "L", "L", "G", "G", "G", "L", "G"] := by
  decide

lemma takeVWV_spec {cs u r : List Char} (h : takeVWV cs = some (u, r)) :
    cs = u ++ r ∧ ∃ c, isVy c = true ∧ (u = [c, virAma] ∨ u = [c, nukta, virAma]) := by
  match cs with
  | [] => exact Option.noConfusion h
  | [c] => exact Option.noConfusion h
  | c :: d :: rest =>
    simp only [takeVWV] at h
    split at h
    · rename_i hg
      simp only [Option.some.injEq, Prod.mk.injEq] at h
      obtain ⟨hu, hr⟩ := h
      subst hu hr
      simp only [Bool.and_eq_true, decide_eq_true_eq] at hg
      exact ⟨by simp [hg.2], c, hg.1, Or.inl rfl⟩
    · split at h
      · rename_i hg2
        match rest with
        | [] => exact Option.noConfusion h
        | e :: rest2 =>
          simp only at h
          split at h
          · rename_i he
            simp only [Option.some.injEq, Prod.mk.injEq] at h
            obtain ⟨hu, hr⟩ := h
            subst hu hr
            simp only [Bool.and_eq_true, decide_eq_true_eq] at hg2
            exact ⟨by simp [hg2.2, he], c, hg2.1, Or.inr rfl⟩
          · exact Option.noConfusion h
      · exact Option.noConfusion h

lemma takeCodaUnit_spec {cs u r : List Char} (h : takeCodaUnit cs = some (u, r)) :
    cs = u ++ r ∧ u ≠ [] := by
  unfold takeCodaUnit at h
  split at h
  · rename_i u0 r0 hv
    obtain ⟨hcs, c, hc, hu0⟩ := takeVWV_spec hv
    split at h
    · rename_i e r2
      split at h
      · rename_i he
        simp only [Option.some.injEq, Prod.mk.injEq] at h
        obtain ⟨hu, hr⟩ := h
        subst hu hr
        subst he
        refine ⟨by simpa using hcs, ?_⟩
        rcases hu0 with h1 | h1 <;> simp [h1]
      · simp only [Option.some.injEq, Prod.mk.injEq] at h
        obtain ⟨hu, hr⟩ := h
        subst hu hr
        refine ⟨hcs, ?_⟩
        rcases hu0 with h1 | h1 <;> simp [h1]
    · simp only [Option.some.injEq, Prod.mk.injEq] at h
      obtain ⟨hu, hr⟩ := h
      subst hu hr
      refine ⟨by simpa using hcs, ?_⟩
      rcases hu0 with h1 | h1 <;> simp [h1]
  · exact Option.noConfusion h

lemma takeCoda_append : ∀ (f : Nat) (cs : List Char),
    (takeCoda f cs).1 ++ (takeCoda f cs).2 = cs := by
  intro f
  induction f with
  | zero => intro cs; simp [takeCoda]
  | succ f ih =>
    intro cs
    simp only [takeCoda]
    cases hu : takeCodaUnit cs with
    | none => simp
    | some pr =>
      obtain ⟨u, r⟩ := pr
      obtain ⟨hcs, -⟩ := takeCodaUnit_spec hu
      simp only
      rw [List.append_assoc, ih r, hcs]

lemma skipNukta_append (cs : List Char) :
    (skipNukta cs).1 ++ (skipNukta cs).2 = cs := by
  match cs with
  | [] => simp [skipNukta]
  | d :: r =>
    simp only [skipNukta]
    split <;> simp

lemma buildTail_append (r : List Char) :
    (buildTail r).1 ++ (buildTail r).2 = r := by
  simp only [buildTail]
  rw [List.append_assoc, List.append_assoc, List.append_assoc, List.append_assoc]
  rw [takeCoda_append]
  rw [List.takeWhile_append_dropWhile]
  rw [List.takeWhile_append_dropWhile]
  rw [List.takeWhile_append_dropWhile]
  exact skipNukta_append r

lemma matchCore_spec : ∀ (f : Nat) (cs p r : List Char),
    matchCore f cs = some (p, r) → p ++ r = cs ∧ p ≠ [] := by
  intro f
  induction f with
  | zero => intro cs p r h; exact Option.noConfusion h
  | succ f ih =>
    intro cs p r h
    simp only [matchCore] at h
    split at h
    · rename_i u rest hv
      obtain ⟨hcs, c, hc, hu⟩ := takeVWV_spec hv
      split at h
      · rename_i p2 r2 hm
        simp only [Option.some.injEq, Prod.mk.injEq] at h
        obtain ⟨hp, hr⟩ := h
        subst hp hr
        obtain ⟨hrest, hne⟩ := ih _ _ _ hm
        constructor
        · rw [List.append_assoc, hrest, hcs]
        · rcases hu with h1 | h1 <;> simp [h1]
      · rename_i hm
        simp only [Option.some.injEq, Prod.mk.injEq] at h
        obtain ⟨hp, hr⟩ := h
        subst hp hr
        constructor
        · rcases hu with h1 | h1 <;> subst h1 <;> simp [hcs]
        · rcases hu with h1 | h1 <;> simp [h1]
    · rename_i hv
      split at h
      · rename_i c rest
        split at h
        · simp only [Option.some.injEq, Prod.mk.injEq] at h
          obtain ⟨hp, hr⟩ := h
          subst hp hr
          constructor
          · have := buildTail_append rest
            simp only [List.cons_append]
            rw [this]
          · simp
        · exact Option.noConfusion h
      · exact Option.noConfusion h

lemma matchSyllable_spec {cs p r : List Char} (h : matchSyllable cs = some (p, r)) :
    p ++ r = cs ∧ p ≠ [] :=
  matchCore_spec cs.length cs p r h

lemma scan_join : ∀ (f : Nat) (cs : List Char) (ps : List (List Char)),
    scanSyllables f cs = .ok ps → ps.flatten = cs := by
  intro f
  induction f with
  | zero =>
    intro cs ps h
    match cs with
    | [] => simp only [scanSyllables, Except.ok.injEq] at h; subst h; rfl
    | c :: rest => exact Except.noConfusion h
  | succ f ih =>
    intro cs ps h
    match cs with
    | [] => simp only [scanSyllables, Except.ok.injEq] at h; subst h; rfl
    | c :: rest =>
      simp only [scanSyllables] at h
      split at h
      · exact Except.noConfusion h
      · rename_i p r hm
        obtain ⟨hpr, hne⟩ := matchSyllable_spec hm
        simp only [List.isEmpty_iff] at h
        rw [if_neg hne] at h
        split at h
        · rename_i ps2 hs
          simp only [Except.ok.injEq] at h
          subst h
          simp only [List.flatten_cons]
          rw [ih r ps2 hs, hpr]
        · exact Except.noConfusion h

lemma stringJoin_map_mk : ∀ (ps : List (List Char)) (a : List Char),
    (ps.map String.mk).foldl (fun r s => r ++ s) (String.mk a) = String.mk (a ++ ps.flatten) := by
  intro ps
  induction ps with
  | nil => intro a; simp
  | cons p rest ih =>
    intro a
    simp only [List.map_cons, List.foldl_cons]
    have : String.mk a ++ String.mk p = String.mk (a ++ p) := rfl
    rw [this, ih (a ++ p)]
    simp

/-- C1: whenever `get_syllables` succeeds on an input line, concatenating the
returned syllables in order reproduces the cleaned input line exactly, where
cleaning removes out-of-set characters and whitespace, expands the OM
ligature, and sandhi-joins a trailing dead consonant to a following
independent vowel (`cleanChars`). -/
theorem get_syllables_round_trip (s : String) (ys : List String)
    (h : get_syllables s = Except.ok ys) :
    String.join ys = String.mk (cleanChars s.data) := by
  simp only [get_syllables] at h
  split at h
  · rename_i ps hs
    simp only [Except.ok.injEq] at h
    subst h
    have hj := scan_join _ _ _ hs
    unfold String.join
    rw [stringJoin_map_mk ps []]
    simp [hj]
  · exact Except.noConfusion h

/-- C1 witness at a concrete input. -/
theorem get_syllables_round_trip_witness :
    String.join ["बिक्", "र", "म", "मे", "रो", "ना", "म", "हो"] =
      String.mk (cleanChars ("बिक्रममेरोनामहो").data) :=
  get_syllables_round_trip "बिक्रममेरोनामहो" ["बिक्", "र", "म", "मे", "रो", "ना", "म", "हो"]
    (by decide)

lemma scan_dichotomy : ∀ (f : Nat) (cs : List Char), cs.length ≤ f →
    (∃ ps, scanSyllables f cs = .ok ps) ∨
    (∃ r, scanSyllables f cs = .error r ∧ matchSyllable r = none ∧ r ≠ []) := by
  intro f
  induction f with
  | zero =>
    intro cs hlen
    have : cs = [] := List.length_eq_zero.mp (Nat.le_zero.mp hlen)
    subst this
    exact Or.inl ⟨[], rfl⟩
  | succ f ih =>
    intro cs hlen
    match cs with
    | [] => exact Or.inl ⟨[], rfl⟩
    | c :: rest =>
      simp only [scanSyllables]
      cases hm : matchSyllable (c :: rest) with
      | none =>
        exact Or.inr ⟨c :: rest, rfl, hm, by simp⟩
      | some pr =>
        obtain ⟨p, r⟩ := pr
        obtain ⟨hpr, hne⟩ := matchSyllable_spec hm
        simp only [List.isEmpty_iff]
        rw [if_neg hne]
        have hrlen : r.length ≤ f := by
          have h1 : p.length + r.length = (c :: rest).length := by
            rw [← List.length_append, hpr]
          have h2 : 1 ≤ p.length := by
            match p, hne with
            | x :: xs, _ => simp
          simp only [List.length_cons] at h1 hlen
          omega
        rcases ih r hrlen with ⟨ps, hok⟩ | ⟨r2, herr, hnone, hner⟩
        · rw [hok]; exact Or.inl ⟨p :: ps, rfl⟩
        · rw [herr]; exact Or.inr ⟨r2, rfl, hnone, hner⟩

/-- C8: on every input line, `get_syllables` either succeeds, or fails with an
error carrying exactly the non-empty unconsumed remainder of the cleaned line,
at which position no syllable rule matches; consequently it never fails on
inputs where the rule matches at every scan position. -/
theorem get_syllables_error_spec (s : String) :
    (∃ ys, get_syllables s = Except.ok ys) ∨
    (∃ r : List Char, get_syllables s = Except.error (String.mk r) ∧
      matchSyllable r = none ∧ r ≠ []) := by
  simp only [get_syllables]
  rcases scan_dichotomy (cleanChars s.data).length (cleanChars s.data) (Nat.le_refl _) with
    ⟨ps, hok⟩ | ⟨r, herr, hnone, hner⟩
  · rw [hok]; exact Or.inl ⟨ps.map (fun p => String.mk p), rfl⟩
  · rw [herr]; exact Or.inr ⟨r, rfl, hnone, hner⟩

lemma toNat_ne {c d : Char} (h : c.toNat ≠ d.toNat) : c ≠ d := fun he => h (by rw [he])

lemma dv_not_ivvy {c : Char} (h : isDV c = true) : isIVVY c = false := by
  rw [Bool.eq_false_iff]
  intro hy
  simp only [isDV, Bool.or_eq_true, Bool.and_eq_true, decide_eq_true_eq] at h
  simp only [isIVVY, isIV, isVy, Bool.or_eq_true, Bool.and_eq_true, decide_eq_true_eq] at hy
  omega

lemma yog_not_ivvy {c : Char} (h : isYog c = true) : isIVVY c = false := by
  rw [Bool.eq_false_iff]
  intro hy
  simp only [isYog, Bool.and_eq_true, decide_eq_true_eq] at h
  simp only [isIVVY, isIV, isVy, Bool.or_eq_true, Bool.and_eq_true, decide_eq_true_eq] at hy
  omega

lemma acc_not_ivvy {c : Char} (h : isAcc c = true) : isIVVY c = false := by
  rw [Bool.eq_false_iff]
  intro hy
  simp only [isAcc, Bool.and_eq_true, decide_eq_true_eq] at h
  simp only [isIVVY, isIV, isVy, Bool.or_eq_true, Bool.and_eq_true, decide_eq_true_eq] at hy
  omega

lemma dv_toNat {c : Char} (h : isDV c = true) :
    c ≠ nukta ∧ c ≠ virAma ∧ c ≠ candrabindu ∧ isYog c = false ∧ isAcc c = false := by
  simp only [isDV, Bool.or_eq_true, Bool.and_eq_true, decide_eq_true_eq] at h
  refine ⟨toNat_ne ?_, toNat_ne ?_, toNat_ne ?_, ?_, ?_⟩
  · show c.toNat ≠ (0x93C : Nat); omega
  · show c.toNat ≠ (0x94D : Nat); omega
  · show c.toNat ≠ (0x901 : Nat); omega
  · rw [Bool.eq_false_iff]; intro hy
    simp only [isYog, Bool.and_eq_true, decide_eq_true_eq] at hy; omega
  · rw [Bool.eq_false_iff]; intro hy
    simp only [isAcc, Bool.and_eq_true, decide_eq_true_eq] at hy; omega

lemma acc_toNat {c : Char} (h : isAcc c = true) :
    c ≠ nukta ∧ c ≠ virAma ∧ c ≠ candrabindu ∧ isYog c = false ∧ isDV c = false := by
  simp only [isAcc, Bool.and_eq_true, decide_eq_true_eq] at h
  refine ⟨toNat_ne ?_, toNat_ne ?_, toNat_ne ?_, ?_, ?_⟩
  · show c.toNat ≠ (0x93C : Nat); omega
  · show c.toNat ≠ (0x94D : Nat); omega
  · show c.toNat ≠ (0x901 : Nat); omega
  · rw [Bool.eq_false_iff]; intro hy
    simp only [isYog, Bool.and_eq_true, decide_eq_true_eq] at hy; omega
  · rw [Bool.eq_false_iff]; intro hy
    simp only [isDV, Bool.or_eq_true, Bool.and_eq_true, decide_eq_true_eq] at hy; omega

lemma vy_toNat {c : Char} (h : isVy c = true) :
    c ≠ nukta ∧ c ≠ virAma ∧ c ≠ candrabindu ∧ isYog c = false ∧ isDV c = false ∧
      isAcc c = false := by
  simp only [isVy, Bool.or_eq_true, Bool.and_eq_true, decide_eq_true_eq] at h
  refine ⟨toNat_ne ?_, toNat_ne ?_, toNat_ne ?_, ?_, ?_, ?_⟩
  · show c.toNat ≠ (0x93C : Nat); omega
  · show c.toNat ≠ (0x94D : Nat); omega
  · show c.toNat ≠ (0x901 : Nat); omega
  · rw [Bool.eq_false_iff]; intro hy
    simp only [isYog, Bool.and_eq_true, decide_eq_true_eq] at hy; omega
  · rw [Bool.eq_false_iff]; intro hy
    simp only [isDV, Bool.or_eq_true, Bool.and_eq_true, decide_eq_true_eq] at hy; omega
  · rw [Bool.eq_false_iff]; intro hy
    simp only [isAcc, Bool.and_eq_true, decide_eq_true_eq] at hy; omega

lemma ivvy_toNat {c : Char} (h : isIVVY c = true) :
    c ≠ nukta ∧ c ≠ virAma ∧ c ≠ candrabindu := by
  simp only [isIVVY, isIV, isVy, Bool.or_eq_true, Bool.and_eq_true, decide_eq_true_eq] at h
  refine ⟨toNat_ne ?_, toNat_ne ?_, toNat_ne ?_⟩
  · show c.toNat ≠ (0x93C : Nat); omega
  · show c.toNat ≠ (0x94D : Nat); omega
  · show c.toNat ≠ (0x901 : Nat); omega

lemma takeVWV_virAma (q : List Char) : takeVWV (virAma :: q) = none := by
  match q with
  | [] => rfl
  | d :: rest => simp [takeVWV, show isVy virAma = false by decide]

lemma dropWhile_cons_false {p : Char → Bool} {c : Char} {z : List Char} (h : p c = false) :
    (c :: z).dropWhile p = c :: z := by
  simp [List.dropWhile_cons, h]

lemma skips_virAma (q : List Char) :
    ((((skipNukta (virAma :: q)).2.dropWhile isDV).dropWhile isYog).dropWhile isAcc)
      = virAma :: q := by
  have h1 : skipNukta (virAma :: q) = ([], virAma :: q) := by
    simp [skipNukta, show virAma ≠ nukta by decide]
  rw [h1]
  simp only
  rw [dropWhile_cons_false (by decide : isDV virAma = false)]
  rw [dropWhile_cons_false (by decide : isYog virAma = false)]
  rw [dropWhile_cons_false (by decide : isAcc virAma = false)]

lemma closedAt_cons_virAma (c : Char) (q : List Char) :
    closedAt (c :: virAma :: q) = false := by
  simp only [closedAt, skips_virAma, takeVWV_virAma, Option.isSome_none, Bool.and_false]

lemma closedAt_virAma (q : List Char) : closedAt (virAma :: q) = false := by
  simp only [closedAt, show isIVVY virAma = false by decide, Bool.false_and]

lemma closedAt_nukta (q : List Char) : closedAt (nukta :: q) = false := by
  simp only [closedAt, show isIVVY nukta = false by decide, Bool.false_and]

lemma closedAt_cons_nukta_virAma (c : Char) (q : List Char) :
    closedAt (c :: nukta :: virAma :: q) = false := by
  have h1 : skipNukta (nukta :: virAma :: q) = ([nukta], virAma :: q) := by
    simp [skipNukta]
  simp only [closedAt, h1]
  rw [dropWhile_cons_false (by decide : isDV virAma = false)]
  rw [dropWhile_cons_false (by decide : isYog virAma = false)]
  rw [dropWhile_cons_false (by decide : isAcc virAma = false)]
  simp [takeVWV_virAma]

/-- Shape of one onset unit matched by `takeVWV`. -/
def IsVWVu (u : List Char) : Prop :=
  ∃ c, isVy c = true ∧ (u = [c, virAma] ∨ u = [c, nukta, virAma])

/-- Shape of one coda unit matched by `takeCodaUnit`. -/
def IsCodaU (u : List Char) : Prop :=
  ∃ c, isVy c = true ∧
    (u = [c, virAma] ∨ u = [c, nukta, virAma] ∨
     u = [c, virAma, candrabindu] ∨ u = [c, nukta, virAma, candrabindu])

/-- A concatenation of coda units. -/
inductive CodaRun : List Char → Prop
  | nil : CodaRun []
  | cons (u t : List Char) : IsCodaU u → CodaRun t → CodaRun (u ++ t)

/-- A concatenation of onset units. -/
inductive OnsetRun : List Char → Prop
  | nil : OnsetRun []
  | cons (u t : List Char) : IsVWVu u → OnsetRun t → OnsetRun (u ++ t)

/-- Shape of the syllable part matched after a successful mandatory
`[IV VY]` character: optional nukta, mātrās, yogavāhas, accents, coda run. -/
def ScannerBase (b : List Char) : Prop :=
  ∃ (c : Char) (nk dv yg ac cd : List Char),
    isIVVY c = true ∧ (nk = [] ∨ nk = [nukta]) ∧
    (∀ x ∈ dv, isDV x = true) ∧ (∀ x ∈ yg, isYog x = true) ∧
    (∀ x ∈ ac, isAcc x = true) ∧ CodaRun cd ∧
    b = c :: (nk ++ dv ++ yg ++ ac ++ cd)

/-- Shape of the syllable end when the regex engine gives back the last
onset unit (its virāma stays unconsumed). -/
def GiveBackBase (b : List Char) : Prop :=
  ∃ c, isVy c = true ∧ (b = [c] ∨ b = [c, nukta])

/-- Shape of every syllable produced by the syllable matcher. -/
def Produced (p : List Char) : Prop :=
  ∃ os b, OnsetRun os ∧ (ScannerBase b ∨ GiveBackBase b) ∧ p = os ++ b

lemma takeCodaUnit_shape {cs u r : List Char} (h : takeCodaUnit cs = some (u, r)) :
    IsCodaU u := by
  unfold takeCodaUnit at h
  split at h
  · rename_i u0 r0 hv
    obtain ⟨-, c, hc, hu0⟩ := takeVWV_spec hv
    split at h
    · rename_i e r2
      split at h
      · rename_i he
        simp only [Option.some.injEq, Prod.mk.injEq] at h
        obtain ⟨hu, -⟩ := h
        subst hu he
        rcases hu0 with h1 | h1 <;> subst h1
        · exact ⟨c, hc, by simp⟩
        · exact ⟨c, hc, by simp⟩
      · simp only [Option.some.injEq, Prod.mk.injEq] at h
        obtain ⟨hu, -⟩ := h
        subst hu
        rcases hu0 with h1 | h1 <;> subst h1
        · exact ⟨c, hc, by simp⟩
        · exact ⟨c, hc, by simp⟩
    · simp only [Option.some.injEq, Prod.mk.injEq] at h
      obtain ⟨hu, -⟩ := h
      subst hu
      rcases hu0 with h1 | h1 <;> subst h1
      · exact ⟨c, hc, by simp⟩
      · exact ⟨c, hc, by simp⟩
  · exact Option.noConfusion h

lemma takeCoda_run : ∀ (f : Nat) (cs : List Char), CodaRun (takeCoda f cs).1 := by
  intro f
  induction f with
  | zero => intro cs; exact CodaRun.nil
  | succ f ih =>
    intro cs
    simp only [takeCoda]
    cases hu : takeCodaUnit cs with
    | none => exact CodaRun.nil
    | some pr =>
      obtain ⟨u, r⟩ := pr
      exact CodaRun.cons u _ (takeCodaUnit_shape hu) (ih r)

lemma skipNukta_shape (cs : List Char) :
    (skipNukta cs).1 = [] ∨ (skipNukta cs).1 = [nukta] := by
  match cs with
  | [] => simp [skipNukta]
  | d :: r =>
    simp only [skipNukta]
    split
    · rename_i hd; subst hd; simp
    · simp

lemma buildTail_shape (rest : List Char) :
    ∃ nk dv yg ac cd,
      (nk = [] ∨ nk = [nukta]) ∧ (∀ x ∈ dv, isDV x = true) ∧
      (∀ x ∈ yg, isYog x = true) ∧ (∀ x ∈ ac, isAcc x = true) ∧ CodaRun cd ∧
      (buildTail rest).1 = nk ++ dv ++ yg ++ ac ++ cd := by
  refine ⟨(skipNukta rest).1, _, _, _, _, skipNukta_shape rest,
    fun x hx => List.mem_takeWhile_imp hx, fun x hx => List.mem_takeWhile_imp hx,
    fun x hx => List.mem_takeWhile_imp hx, takeCoda_run _ _, rfl⟩

lemma matchCore_shape : ∀ (f : Nat) (cs p r : List Char),
    matchCore f cs = some (p, r) → Produced p := by
  intro f
  induction f with
  | zero => intro cs p r h; exact Option.noConfusion h
  | succ f ih =>
    intro cs p r h
    simp only [matchCore] at h
    split at h
    · rename_i u rest hv
      obtain ⟨hcs, c, hc, hu⟩ := takeVWV_spec hv
      split at h
      · rename_i p2 r2 hm
        simp only [Option.some.injEq, Prod.mk.injEq] at h
        obtain ⟨hp, hr⟩ := h
        subst hp
        obtain ⟨os, b, hon, hb, hpb⟩ := ih _ _ _ hm
        subst hpb
        refine ⟨u ++ os, b, ?_, hb, by simp⟩
        exact OnsetRun.cons u os ⟨c, hc, hu⟩ hon
      · simp only [Option.some.injEq, Prod.mk.injEq] at h
        obtain ⟨hp, hr⟩ := h
        subst hp
        refine ⟨[], u.dropLast, OnsetRun.nil, Or.inr ⟨c, hc, ?_⟩, by simp⟩
        rcases hu with h1 | h1 <;> subst h1 <;> simp
    · rename_i hv
      split at h
      · rename_i c rest
        split at h
        · rename_i hivvy
          simp only [Option.some.injEq, Prod.mk.injEq] at h
          obtain ⟨hp, hr⟩ := h
          subst hp
          obtain ⟨nk, dv, yg, ac, cd, hnk, hdv, hyg, hac, hcd, hbt⟩ := buildTail_shape rest
          exact ⟨[], c :: (buildTail rest).1, OnsetRun.nil,
            Or.inl ⟨c, nk, dv, yg, ac, cd, hivvy, hnk, hdv, hyg, hac, hcd, by rw [hbt]⟩,
            by simp⟩
        · exact Option.noConfusion h
      · exact Option.noConfusion h

lemma hca_unit {u : List Char} (hu : IsVWVu u) (q : List Char) :
    hasClosedAux (u ++ q) = hasClosedAux q := by
  obtain ⟨c, hc, h1 | h1⟩ := hu <;> subst h1
  · show hasClosedAux (c :: virAma :: q) = _
    simp [hasClosedAux, closedAt_cons_virAma, closedAt_virAma]
  · show hasClosedAux (c :: nukta :: virAma :: q) = _
    simp [hasClosedAux, closedAt_cons_nukta_virAma, closedAt_nukta, closedAt_virAma]

lemma hca_onset {os : List Char} (h : OnsetRun os) (q : List Char) :
    hasClosedAux (os ++ q) = hasClosedAux q := by
  induction h with
  | nil => rfl
  | cons u t hu ht ih =>
    rw [List.append_assoc, hca_unit hu]
    exact ih

lemma hca_coda {cd : List Char} (h : CodaRun cd) (hcb : candrabindu ∉ cd) :
    hasClosedAux cd = false := by
  induction h with
  | nil => rfl
  | cons u t hu ht ih =>
    have hcbu : candrabindu ∉ u := fun hx => hcb (List.mem_append.mpr (Or.inl hx))
    have hcbt : candrabindu ∉ t := fun hx => hcb (List.mem_append.mpr (Or.inr hx))
    obtain ⟨c, hc, h1 | h1 | h1 | h1⟩ := hu
    · subst h1
      show hasClosedAux (c :: virAma :: t) = false
      simp [hasClosedAux, closedAt_cons_virAma, closedAt_virAma, ih hcbt]
    · subst h1
      show hasClosedAux (c :: nukta :: virAma :: t) = false
      simp [hasClosedAux, closedAt_cons_nukta_virAma, closedAt_nukta, closedAt_virAma, ih hcbt]
    · subst h1
      exact absurd (by simp) hcbu
    · subst h1
      exact absurd (by simp) hcbu

lemma hca_nonIVVY : ∀ {l : List Char}, (∀ x ∈ l, isIVVY x = false) → ∀ (q : List Char),
    hasClosedAux (l ++ q) = hasClosedAux q := by
  intro l
  induction l with
  | nil => intro _ q; rfl
  | cons x xs ih =>
    intro h q
    have hx : isIVVY x = false := h x (by simp)
    have h1 : closedAt (x :: (xs ++ q)) = false := by
      simp only [closedAt, hx, Bool.false_and]
    show (closedAt (x :: (xs ++ q)) || hasClosedAux (xs ++ q)) = hasClosedAux q
    rw [h1, Bool.false_or]
    exact ih (fun y hy => h y (by simp [hy])) q

lemma coda_head {cd : List Char} (h : CodaRun cd) :
    ∀ x, cd.head? = some x → isVy x = true := by
  induction h with
  | nil => intro x hx; exact Option.noConfusion hx
  | cons u t hu ht ih =>
    intro x hx
    obtain ⟨c, hc, h1 | h1 | h1 | h1⟩ := hu <;> subst h1 <;>
      simp only [List.cons_append, List.head?_cons, Option.some.injEq] at hx <;>
      rw [← hx] <;> exact hc

lemma coda_takeVWV {cd : List Char} (h : CodaRun cd) (hcb : candrabindu ∉ cd)
    (hne : cd ≠ []) : (takeVWV cd).isSome = true := by
  cases h with
  | nil => exact absurd rfl hne
  | cons u t hu ht =>
    obtain ⟨c, hc, h1 | h1 | h1 | h1⟩ := hu
    · subst h1
      show (takeVWV (c :: virAma :: t)).isSome = true
      simp [takeVWV, hc]
    · subst h1
      show (takeVWV (c :: nukta :: virAma :: t)).isSome = true
      simp [takeVWV, hc, show ¬(nukta = virAma) from by decide]
    · subst h1
      exact absurd (by simp) hcb
    · subst h1
      exact absurd (by simp) hcb

lemma dropWhile_all_append {p : Char → Bool} :
    ∀ {l : List Char} (z : List Char), (∀ x ∈ l, p x = true) →
      (l ++ z).dropWhile p = z.dropWhile p := by
  intro l
  induction l with
  | nil => intro z _; rfl
  | cons x xs ih =>
    intro z h
    have hx : p x = true := h x (by simp)
    simp only [List.cons_append, List.dropWhile_cons, hx, if_true]
    exact ih z (fun y hy => h y (by simp [hy]))

lemma dropWhile_head_false {p : Char → Bool} {z : List Char}
    (h : ∀ x, z.head? = some x → p x = false) : z.dropWhile p = z := by
  match z with
  | [] => rfl
  | x :: r => exact dropWhile_cons_false (h x rfl)

lemma skipNukta_of_head {z : List Char} (h : ∀ x, z.head? = some x → x ≠ nukta) :
    skipNukta z = ([], z) := by
  match z with
  | [] => rfl
  | d :: r => simp [skipNukta, h d rfl]

lemma head_dac {dv ac cd : List Char} (hdv : ∀ x ∈ dv, isDV x = true)
    (hac : ∀ x ∈ ac, isAcc x = true) (hcd : CodaRun cd) :
    ∀ x, (dv ++ ac ++ cd).head? = some x →
      isDV x = true ∨ isAcc x = true ∨ isVy x = true := by
  intro x hx
  match dv with
  | d :: _ =>
    simp only [List.cons_append, List.head?_cons, Option.some.injEq] at hx
    exact Or.inl (hx ▸ hdv d (by simp))
  | [] =>
    simp only [List.nil_append] at hx
    match ac with
    | a :: _ =>
      simp only [List.cons_append, List.head?_cons, Option.some.injEq] at hx
      exact Or.inr (Or.inl (hx ▸ hac a (by simp)))
    | [] =>
      simp only [List.nil_append] at hx
      exact Or.inr (Or.inr (coda_head hcd x hx))

lemma head_ac {ac cd : List Char} (hac : ∀ x ∈ ac, isAcc x = true) (hcd : CodaRun cd) :
    ∀ x, (ac ++ cd).head? = some x → isAcc x = true ∨ isVy x = true := by
  intro x hx
  match ac with
  | a :: _ =>
    simp only [List.cons_append, List.head?_cons, Option.some.injEq] at hx
    exact Or.inl (hx ▸ hac a (by simp))
  | [] =>
    simp only [List.nil_append] at hx
    exact Or.inr (coda_head hcd x hx)

lemma scanner_closedAt {c : Char} {nk dv ac cd : List Char} (hc : isIVVY c = true)
    (hnk : nk = [] ∨ nk = [nukta]) (hdv : ∀ x ∈ dv, isDV x = true)
    (hac : ∀ x ∈ ac, isAcc x = true) (hcd : CodaRun cd) (hcb : candrabindu ∉ cd) :
    closedAt (c :: (nk ++ dv ++ ac ++ cd)) = !cd.isEmpty := by
  have hsn : (skipNukta (nk ++ dv ++ ac ++ cd)).2 = dv ++ ac ++ cd := by
    rcases hnk with h1 | h1 <;> subst h1
    · simp only [List.nil_append]
      rw [skipNukta_of_head]
      intro x hx
      rcases head_dac hdv hac hcd x hx with h | h | h
      · exact (dv_toNat h).1
      · exact (acc_toNat h).1
      · exact (vy_toNat h).1
    · simp [skipNukta]
  have hd1 : (dv ++ ac ++ cd).dropWhile isDV = ac ++ cd := by
    rw [List.append_assoc, dropWhile_all_append _ hdv]
    apply dropWhile_head_false
    intro x hx
    rcases head_ac hac hcd x hx with h | h
    · exact (acc_toNat h).2.2.2.2
    · exact (vy_toNat h).2.2.2.2.1
  have hd2 : (ac ++ cd).dropWhile isYog = ac ++ cd := by
    apply dropWhile_head_false
    intro x hx
    rcases head_ac hac hcd x hx with h | h
    · exact (acc_toNat h).2.2.2.1
    · exact (vy_toNat h).2.2.2.1
  have hd3 : (ac ++ cd).dropWhile isAcc = cd := by
    rw [dropWhile_all_append _ hac]
    apply dropWhile_head_false
    intro x hx
    exact (vy_toNat (coda_head hcd x hx)).2.2.2.2.2
  simp only [closedAt, hsn, hd1, hd2, hd3, hc, Bool.true_and]
  match cd, hcd with
  | [], _ => rfl
  | u :: t, hcd2 =>
    rw [coda_takeVWV hcd2 hcb (by simp)]
    rfl

lemma endsDead_of_last_virAma {cs : List Char} (h : cs.getLast? = some virAma) :
    endsDeadChars cs = true := by
  unfold endsDeadChars
  rw [← List.head?_reverse] at h
  cases hr : cs.reverse with
  | nil => rw [hr] at h; exact Option.noConfusion h
  | cons v rest =>
    rw [hr] at h
    simp only [List.head?_cons, Option.some.injEq] at h
    subst h
    simp

lemma endsDead_false_of_last {cs : List Char} {x : Char} (h : cs.getLast? = some x)
    (h1 : x ≠ virAma) (h2 : x ≠ candrabindu) : endsDeadChars cs = false := by
  unfold endsDeadChars
  rw [← List.head?_reverse] at h
  cases hr : cs.reverse with
  | nil => exfalso; rw [hr] at h; exact Option.noConfusion h
  | cons v rest =>
    rw [hr] at h
    simp only [List.head?_cons, Option.some.injEq] at h
    subst h
    match rest with
    | [] => simp [h1]
    | [w] => simp [h1]
    | w :: c :: _ => simp [h1, h2]

lemma coda_last {cd : List Char} (h : CodaRun cd) (hcb : candrabindu ∉ cd)
    (hne : cd ≠ []) : cd.getLast? = some virAma := by
  induction h with
  | nil => exact absurd rfl hne
  | cons u t hu ht ih =>
    have hcbu : candrabindu ∉ u := fun hx => hcb (List.mem_append.mpr (Or.inl hx))
    have hcbt : candrabindu ∉ t := fun hx => hcb (List.mem_append.mpr (Or.inr hx))
    by_cases hte : t = []
    · subst hte
      rw [List.append_nil]
      obtain ⟨c, hc, h1 | h1 | h1 | h1⟩ := hu <;> subst h1
      · rfl
      · rfl
      · exact absurd (by simp) hcbu
      · exact absurd (by simp) hcbu
    · rw [List.getLast?_append_of_ne_nil u hte]
      exact ih hcbt hte

lemma mem_of_getLast? {l : List Char} {x : Char} (h : l.getLast? = some x) : x ∈ l := by
  have h2 : x ∈ l.getLast? := by rw [h]; rfl
  obtain ⟨hne, hx⟩ := List.mem_getLast?_eq_getLast h2
  rw [hx]
  exact List.getLast_mem hne

lemma hasGuru_split (cs : List Char) :
    hasGuru cs = (cs.any (fun c => isGuruIV c || isGuruDV c) || cs.any isYog) := by
  induction cs with
  | nil => rfl
  | cons c rest ih =>
    simp only [hasGuru, List.any_cons] at *
    rw [ih]
    cases h1 : isGuruIV c <;> cases h2 : isGuruDV c <;> cases h3 : isYog c <;>
      simp [isGuruChar, h1, h2, h3, Bool.or_comm, Bool.or_assoc, Bool.or_left_comm]

/-- Core of C2: for a syllable of the produced shape containing no guru
character, the closed-syllable rule fires exactly when the syllable ends in a
dead consonant. -/
lemma produced_closed_eq {p : List Char} (hp : Produced p) (hg : hasGuru p = false) :
    hasClosedAux p = endsDeadChars p := by
  obtain ⟨os, b, hos, hb, rfl⟩ := hp
  have hgb : ∀ x ∈ os ++ b, isGuruChar x = false := by
    intro x hx
    by_contra hne
    have hx2 : isGuruChar x = true := by revert hne; cases isGuruChar x <;> simp
    have : hasGuru (os ++ b) = true := List.any_eq_true.mpr ⟨x, hx, hx2⟩
    rw [hg] at this
    exact Bool.noConfusion this
  rcases hb with hsc | hgbk
  · obtain ⟨c, nk, dv, yg, ac, cd, hc, hnk, hdv, hyg, hac, hcd, rfl⟩ := hsc
    have hyg0 : yg = [] := by
      match yg, hyg with
      | [], _ => rfl
      | y :: ys, hyg =>
        exfalso
        have hy : isYog y = true := hyg y (by simp)
        have hmem : y ∈ os ++ c :: (nk ++ dv ++ (y :: ys) ++ ac ++ cd) := by simp
        have hfalse := hgb y hmem
        simp [isGuruChar, hy] at hfalse
    subst hyg0
    have hcb : candrabindu ∉ cd := by
      intro hx
      have hmem : candrabindu ∈ os ++ c :: (nk ++ dv ++ [] ++ ac ++ cd) := by simp [hx]
      have hfalse := hgb _ hmem
      simp [isGuruChar, show isYog candrabindu = true from by decide] at hfalse
    rw [hca_onset hos]
    simp only [List.append_nil]
    show (closedAt (c :: (nk ++ dv ++ ac ++ cd)) || hasClosedAux (nk ++ dv ++ ac ++ cd))
      = endsDeadChars (os ++ c :: (nk ++ dv ++ ac ++ cd))
    rw [scanner_closedAt hc hnk hdv hac hcd hcb]
    have htail : hasClosedAux (nk ++ dv ++ ac ++ cd) = false := by
      rw [List.append_assoc, List.append_assoc, hca_nonIVVY (l := nk), hca_nonIVVY (l := dv),
        hca_nonIVVY (l := ac), hca_coda hcd hcb]
      · intro x hx
        have := hac x hx
        exact acc_not_ivvy this
      · intro x hx
        have := hdv x hx
        exact dv_not_ivvy this
      · intro x hx
        rcases hnk with h1 | h1 <;> subst h1
        · exact absurd hx (List.not_mem_nil x)
        · simp only [List.mem_singleton] at hx
          subst hx
          decide
    rw [htail, Bool.or_false]
    match cd, hcd, hcb with
    | [], _, _ =>
      cases hlx : (os ++ c :: (nk ++ dv ++ ac ++ [])).getLast? with
      | none =>
        exfalso
        rw [List.getLast?_eq_none_iff] at hlx
        simp at hlx
      | some x =>
        have hxb : x ∈ c :: (nk ++ dv ++ ac ++ []) := by
          have h2 : (os ++ c :: (nk ++ dv ++ ac ++ [])).getLast?
              = (c :: (nk ++ dv ++ ac ++ [])).getLast? :=
            List.getLast?_append_of_ne_nil os (by simp)
          have hlx2 := h2 ▸ hlx
          exact mem_of_getLast? hlx2
        have hxV : x ≠ virAma ∧ x ≠ candrabindu := by
          simp only [List.append_nil, List.mem_cons, List.mem_append] at hxb
          rcases hxb with h1 | (h1 | h1) | h1
          · subst h1
            exact ⟨(ivvy_toNat hc).2.1, (ivvy_toNat hc).2.2⟩
          · rcases hnk with h2 | h2 <;> subst h2
            · exact absurd h1 (List.not_mem_nil x)
            · simp only [List.mem_singleton] at h1
              subst h1
              exact ⟨by decide, by decide⟩
          · exact ⟨(dv_toNat (hdv x h1)).2.1, (dv_toNat (hdv x h1)).2.2.1⟩
          · exact ⟨(acc_toNat (hac x h1)).2.1, (acc_toNat (hac x h1)).2.2.1⟩
        rw [endsDead_false_of_last hlx hxV.1 hxV.2]
        rfl
    | u :: t, hcd2, hcb2 =>
      have hlast : (os ++ c :: (nk ++ dv ++ ac ++ u :: t)).getLast? = some virAma := by
        rw [List.getLast?_append_of_ne_nil os (by simp)]
        have h3 : c :: (nk ++ dv ++ ac ++ u :: t) = (c :: (nk ++ dv ++ ac)) ++ u :: t := by
          simp
        rw [h3, List.getLast?_append_of_ne_nil _ (by simp)]
        exact coda_last hcd2 hcb2 (by simp)
      rw [endsDead_of_last_virAma hlast]
      rfl
  · obtain ⟨c, hc, h1 | h1⟩ := hgbk <;> subst h1
    · rw [hca_onset hos]
      have h2 : hasClosedAux [c] = false := by
        show (closedAt [c] || false) = false
        simp [closedAt, skipNukta, takeVWV]
      rw [h2]
      have hlast : (os ++ [c]).getLast? = some c :=
        by rw [List.getLast?_append_of_ne_nil os (by simp)]; rfl
      rw [endsDead_false_of_last hlast (vy_toNat hc).2.1 (vy_toNat hc).2.2.1]
    · rw [hca_onset hos]
      have h2 : hasClosedAux [c, nukta] = false := by
        show (closedAt [c, nukta] || (closedAt [nukta] || false)) = false
        rw [closedAt_nukta]
        simp [closedAt, skipNukta, takeVWV]
      rw [h2]
      have hlast : (os ++ [c, nukta]).getLast? = some nukta := by
        rw [List.getLast?_append_of_ne_nil os (by simp)]
        rfl
      rw [endsDead_false_of_last hlast (by decide) (by decide)]

lemma scan_mem_produced : ∀ (f : Nat) (cs : List Char) (ps : List (List Char)),
    scanSyllables f cs = .ok ps → ∀ p ∈ ps, Produced p := by
  intro f
  induction f with
  | zero =>
    intro cs ps h p hp
    match cs with
    | [] =>
      simp only [scanSyllables, Except.ok.injEq] at h
      subst h
      exact absurd hp (List.not_mem_nil p)
    | c :: rest => exact Except.noConfusion h
  | succ f ih =>
    intro cs ps h p hp
    match cs with
    | [] =>
      simp only [scanSyllables, Except.ok.injEq] at h
      subst h
      exact absurd hp (List.not_mem_nil p)
    | c :: rest =>
      simp only [scanSyllables] at h
      split at h
      · exact Except.noConfusion h
      · rename_i q r hm
        unfold matchSyllable at hm
        have hprod := matchCore_shape _ _ _ _ hm
        obtain ⟨hpr, hne⟩ := matchCore_spec _ _ _ _ hm
        simp only [List.isEmpty_iff] at h
        rw [if_neg hne] at h
        split at h
        · rename_i ps2 hs
          simp only [Except.ok.injEq] at h
          subst h
          rcases List.mem_cons.mp hp with hp1 | hp1
          · subst hp1; exact hprod
          · exact ih r ps2 hs p hp1
        · exact Except.noConfusion h

/-- Does the syllable's vowel-bearing unit carry a long vowel or diphthong?
It does exactly when the syllable contains a guru independent vowel or a guru
dependent-vowel sign (a produced syllable has exactly one vowel-bearing
unit). -/
def hasLongVowel (s : String) : Bool := s.data.any (fun c => isGuruIV c || isGuruDV c)

/-- Does the syllable carry a yogavāha mark (anusvāra, visarga,
candrabindu)? -/
def hasYogavaha (s : String) : Bool := s.data.any isYog

/-- C2: `get_syllable_weight` is total and deterministic, always returning
"G" or "L"; and on every syllable produced by the syllable assembler it
returns "G" exactly when the syllable's vowel-bearing unit is a long vowel or
diphthong, or the syllable carries a yogavāha mark, or the syllable ends in a
dead-consonant coda (`is_vyanjanaanta`); "L" in every other case. -/
theorem get_syllable_weight_spec :
    (∀ syl : String, get_syllable_weight syl = "G" ∨ get_syllable_weight syl = "L") ∧
    (∀ (s : String) (ys : List String) (syl : String),
      get_syllables s = Except.ok ys → syl ∈ ys →
      (get_syllable_weight syl = "G" ↔
        (hasLongVowel syl = true ∨ hasYogavaha syl = true ∨ is_vyanjanaanta syl = true))) := by
  constructor
  · intro syl
    unfold get_syllable_weight weightChars
    split
    · exact Or.inl rfl
    · split
      · exact Or.inl rfl
      · exact Or.inr rfl
  · intro s ys syl hok hmem
    simp only [get_syllables] at hok
    split at hok
    · rename_i ps hs
      simp only [Except.ok.injEq] at hok
      subst hok
      obtain ⟨p, hpmem, hpeq⟩ := List.mem_map.mp hmem
      subst hpeq
      have hprod : Produced p := scan_mem_produced _ _ _ hs p hpmem
      show weightChars p = "G" ↔
        (p.any (fun c => isGuruIV c || isGuruDV c) = true ∨
          p.any isYog = true ∨ endsDeadChars p = true)
      unfold weightChars
      by_cases hg : hasGuru p = true
      · have hsplit := hasGuru_split p
        rw [hg] at hsplit
        rw [if_pos hg]
        constructor
        · intro _
          rcases Bool.or_eq_true_iff.mp hsplit.symm with h1 | h1
          · exact Or.inl h1
          · exact Or.inr (Or.inl h1)
        · intro _
          rfl
      · have hg0 : hasGuru p = false := by revert hg; cases hasGuru p <;> simp
        have hce := produced_closed_eq hprod hg0
        have hsplit := hasGuru_split p
        rw [hg0] at hsplit
        have hboth := Bool.or_eq_false_iff.mp hsplit.symm
        rw [if_neg hg]
        by_cases hca : hasClosedAux p = true
        · rw [hca] at hce
          rw [if_pos hca]
          exact ⟨fun _ => Or.inr (Or.inr hce.symm), fun _ => rfl⟩
        · have hca0 : hasClosedAux p = false := by revert hca; cases hasClosedAux p <;> simp
          rw [hca0] at hce
          rw [if_neg hca]
          constructor
          · intro hLG
            exact absurd hLG (by decide)
          · intro hor
            rcases hor with h1 | h1 | h1
            · rw [hboth.1] at h1; exact Bool.noConfusion h1
            · rw [hboth.2] at h1; exact Bool.noConfusion h1
            · rw [← hce] at h1; exact Bool.noConfusion h1
    · exact Except.noConfusion hok

/-- C2 witness at a concrete produced syllable: तम् is closed, hence guru. -/
theorem get_syllable_weight_spec_witness :
    (get_syllable_weight "तम्" = "G" ↔
      (hasLongVowel "तम्" = true ∨ hasYogavaha "तम्" = true ∨
        is_vyanjanaanta "तम्" = true)) :=
  get_syllable_weight_spec.2 "तम्" ["तम्"] "तम्" (by decide) (by decide)

/-! Embedding of `src/chandas/svat/data/metrical_data.py`: the four module
level registries (`known_full_patterns`, `known_half_patterns`,
`known_pada_patterns`, `pattern_for_metre`) are modelled as insertion-ordered
association lists, matching Python dict semantics; the nested
`dict`-of-`set` values of the half/pada registries are flattened to
`(pattern, metre name, role set)` triples keyed by the (pattern, name)
pair. -/

/-- Python `p[:-1]` on a pattern string. -/
def dropLastChar (s : String) : String := String.mk s.data.dropLast

/-- `_CleanUpPattern` / `_RemoveChars`: strip SPACE, EM DASH and EN DASH. -/
def cleanUpPattern (s : String) : String :=
  String.mk (s.data.filter
    (fun c => c ≠ ' ' && c ≠ Char.ofNat 0x2014 && c ≠ Char.ofNat 0x2013))

/-- The two end-variants of a cleaned pada pattern: final syllable forced
guru and forced laghu (`[clean[:-1] + 'G', clean[:-1] + 'L']`). -/
def endVariants (q : String) : List String :=
  [dropLastChar q ++ "G", dropLastChar q ++ "L"]

/-- All pairwise concatenations, second component varying fastest
(`itertools.product` order). -/
def prodKeys2 (xs ys : List String) : List String :=
  xs.flatMap (fun a => ys.map (fun b => a ++ b))

/-- The metrical-data registries. -/
structure MetricalData where
  knownFullPatterns : List (String × String)
  knownHalfPatterns : List (String × String × List Nat)
  knownPadaPatterns : List (String × String × List Nat)
  patternForMetre : List (String × List String)
deriving DecidableEq

/-- The registries at module load, before any catalog entry. -/
def emptyDb : MetricalData := ⟨[], [], [], []⟩

/-- Membership test of a full-verse key (`full_pattern in known_full_patterns`). -/
def hasFullKey (db : MetricalData) (pat : String) : Bool :=
  db.knownFullPatterns.any (fun kv => kv.1 = pat)

/-- `_AddFullPattern`: refuse when the key is already present (first metre
wins), else record the single-name entry. -/
def AddFullPattern (db : MetricalData) (pat metreName : String) : MetricalData :=
  if hasFullKey db pat then db
  else { db with knownFullPatterns := db.knownFullPatterns ++ [(pat, metreName)] }

/-- Union of role sets, preserving first-insertion order
(`set.update`). -/
def unionTags (old new : List Nat) : List Nat :=
  old ++ new.filter (fun n => !old.contains n)

/-- `setdefault(pattern, {}).setdefault(name, set()).update(which)` over the
flattened triple list. -/
def addTagged (l : List (String × String × List Nat)) (pat metreName : String)
    (tags : List Nat) : List (String × String × List Nat) :=
  if l.any (fun kv => kv.1 = pat && kv.2.1 = metreName) then
    l.map (fun kv =>
      if kv.1 = pat && kv.2.1 = metreName then (kv.1, kv.2.1, unionTags kv.2.2 tags)
      else kv)
  else l ++ [(pat, metreName, tags)]

/-- `_AddHalfPattern`. -/
def AddHalfPattern (db : MetricalData) (pat metreName : String) (halves : List Nat) :
    MetricalData :=
  { db with knownHalfPatterns := addTagged db.knownHalfPatterns pat metreName halves }

/-- `_AddPadaPattern`. -/
def AddPadaPattern (db : MetricalData) (pat metreName : String) (padas : List Nat) :
    MetricalData :=
  { db with knownPadaPatterns := addTagged db.knownPadaPatterns pat metreName padas }

/-- Membership test of a metre name in `pattern_for_metre`. -/
def hasMetre (db : MetricalData) (metreName : String) : Bool :=
  db.patternForMetre.any (fun kv => kv.1 = metreName)

/-- `_AddPatternForMetre`: when the name is already recorded, leave the
registry unchanged (first definition wins, mismatch only logged); else record
the pada pattern list. -/
def AddPatternForMetre (db : MetricalData) (metreName : String) (padaPatterns : List String) :
    MetricalData :=
  if hasMetre db metreName then db
  else { db with patternForMetre := db.patternForMetre ++ [(metreName, padaPatterns)] }

/-- Lookup of the recorded pada patterns of a metre (`GetPattern`). -/
def GetPattern (db : MetricalData) (metreName : String) : Option (List String) :=
  (db.patternForMetre.find? (fun kv => kv.1 = metreName)).map Prod.snd

/-- `_AddSamavrttaPattern`: clean the single pada pattern, record it four
fold, then index the two end-variants at full (16 combinations), half
(4 pairs, halves {1,2}) and pada (2 keys, padas {1,2,3,4}) granularity. -/
def AddSamavrttaPattern (db : MetricalData) (metreName eachPadaPattern : String) :
    MetricalData :=
  let clean := cleanUpPattern eachPadaPattern
  let db1 := AddPatternForMetre db metreName [clean, clean, clean, clean]
  let pats := endVariants clean
  let db2 := (prodKeys2 (prodKeys2 (prodKeys2 pats pats) pats) pats).foldl
    (fun d k => AddFullPattern d k metreName) db1
  let db3 := (prodKeys2 pats pats).foldl
    (fun d k => AddHalfPattern d k metreName [1, 2]) db2
  pats.foldl (fun d k => AddPadaPattern d k metreName [1, 2, 3, 4]) db3

/-- `_AddVishamavrttaPattern`: four independent cleaned patterns; only padas
2 and 4 expand into end-variants; full-verse keys are the product of the four
variant sets; half keys are computed separately for each half ({1} and {2});
each pada is indexed under its own role only. -/
def AddVishamavrttaPattern (db : MetricalData) (metreName pa pb pc pd : String) :
    MetricalData :=
  let qa := cleanUpPattern pa
  let qb := cleanUpPattern pb
  let qc := cleanUpPattern pc
  let qd := cleanUpPattern pd
  let db1 := AddPatternForMetre db metreName [qa, qb, qc, qd]
  let patsB := endVariants qb
  let patsD := endVariants qd
  let db2 := (prodKeys2 (prodKeys2 (prodKeys2 [qa] patsB) [qc]) patsD).foldl
    (fun d k => AddFullPattern d k metreName) db1
  let db3 := (prodKeys2 [qa] patsB).foldl
    (fun d k => AddHalfPattern d k metreName [1]) db2
  let db4 := (prodKeys2 [qc] patsD).foldl
    (fun d k => AddHalfPattern d k metreName [2]) db3
  let db5 := [qa].foldl (fun d k => AddPadaPattern d k metreName [1]) db4
  let db6 := patsB.foldl (fun d k => AddPadaPattern d k metreName [2]) db5
  let db7 := [qc].foldl (fun d k => AddPadaPattern d k metreName [3]) db6
  patsD.foldl (fun d k => AddPadaPattern d k metreName [4]) db7

lemma foldl_addFull : ∀ (keys : List String) (db : MetricalData) (metreName : String),
    (∀ k ∈ keys, hasFullKey db k = false) → keys.Nodup →
    keys.foldl (fun d k => AddFullPattern d k metreName) db =
      { db with knownFullPatterns :=
          db.knownFullPatterns ++ keys.map (fun k => (k, metreName)) } := by
  intro keys
  induction keys with
  | nil =>
    intro db name _ _
    simp only [List.foldl_nil, List.map_nil, List.append_nil]
  | cons k ks ih =>
    intro db name hfresh hnd
    obtain ⟨hk, hks⟩ := List.nodup_cons.mp hnd
    simp only [List.foldl_cons]
    have hfk := hfresh k (by simp)
    rw [show AddFullPattern db k name
        = { db with knownFullPatterns := db.knownFullPatterns ++ [(k, name)] } from by
      simp [AddFullPattern, hfk]]
    rw [ih _ name ?_ hks]
    · simp
    · intro k2 hk2
      have h0 := hfresh k2 (by simp [hk2])
      simp only [hasFullKey, List.any_append, List.any_cons, List.any_nil,
        Bool.or_false] at h0 ⊢
      rw [h0, Bool.false_or]
      have : k ≠ k2 := fun he => hk (he ▸ hk2)
      simp [this]

lemma foldl_addHalf : ∀ (keys : List String) (db : MetricalData) (metreName : String)
    (tags : List Nat),
    (∀ k ∈ keys,
      db.knownHalfPatterns.any (fun kv => kv.1 = k && kv.2.1 = metreName) = false) →
    keys.Nodup →
    keys.foldl (fun d k => AddHalfPattern d k metreName tags) db =
      { db with knownHalfPatterns :=
          db.knownHalfPatterns ++ keys.map (fun k => (k, metreName, tags)) } := by
  intro keys
  induction keys with
  | nil =>
    intro db name tags _ _
    simp only [List.foldl_nil, List.map_nil, List.append_nil]
  | cons k ks ih =>
    intro db name tags hfresh hnd
    obtain ⟨hk, hks⟩ := List.nodup_cons.mp hnd
    simp only [List.foldl_cons]
    have hfk := hfresh k (by simp)
    rw [show AddHalfPattern db k name tags
        = { db with knownHalfPatterns := db.knownHalfPatterns ++ [(k, name, tags)] } from by
      simp [AddHalfPattern, addTagged, hfk]]
    rw [ih _ name tags ?_ hks]
    · simp
    · intro k2 hk2
      have h0 := hfresh k2 (by simp [hk2])
      simp only [List.any_append, List.any_cons, List.any_nil, Bool.or_false] at h0 ⊢
      rw [h0, Bool.false_or]
      have : k ≠ k2 := fun he => hk (he ▸ hk2)
      simp [this]

lemma foldl_addPada : ∀ (keys : List String) (db : MetricalData) (metreName : String)
    (tags : List Nat),
    (∀ k ∈ keys,
      db.knownPadaPatterns.any (fun kv => kv.1 = k && kv.2.1 = metreName) = false) →
    keys.Nodup →
    keys.foldl (fun d k => AddPadaPattern d k metreName tags) db =
      { db with knownPadaPatterns :=
          db.knownPadaPatterns ++ keys.map (fun k => (k, metreName, tags)) } := by
  intro keys
  induction keys with
  | nil =>
    intro db name tags _ _
    simp only [List.foldl_nil, List.map_nil, List.append_nil]
  | cons k ks ih =>
    intro db name tags hfresh hnd
    obtain ⟨hk, hks⟩ := List.nodup_cons.mp hnd
    simp only [List.foldl_cons]
    have hfk := hfresh k (by simp)
    rw [show AddPadaPattern db k name tags
        = { db with knownPadaPatterns := db.knownPadaPatterns ++ [(k, name, tags)] } from by
      simp [AddPadaPattern, addTagged, hfk]]
    rw [ih _ name tags ?_ hks]
    · simp
    · intro k2 hk2
      have h0 := hfresh k2 (by simp [hk2])
      simp only [List.any_append, List.any_cons, List.any_nil, Bool.or_false] at h0 ⊢
      rw [h0, Bool.false_or]
      have : k ≠ k2 := fun he => hk (he ▸ hk2)
      simp [this]

lemma string_data_append (a b : String) : (a ++ b).data = a.data ++ b.data := rfl

lemma string_eq_of_data {a b : String} (h : a.data = b.data) : a = b := by
  cases a; cases b; exact congrArg String.mk h

lemma string_append_inj {a b c d : String} (hl : a.length = c.length)
    (h : a ++ b = c ++ d) : a = c ∧ b = d := by
  have hd : a.data ++ b.data = c.data ++ d.data := by
    rw [← string_data_append, ← string_data_append, h]
  have hlen : a.data.length = c.data.length := hl
  obtain ⟨h1, h2⟩ := List.append_inj hd hlen
  exact ⟨string_eq_of_data h1, string_eq_of_data h2⟩

lemma endVariants_nodup (q : String) : (endVariants q).Nodup := by
  simp only [endVariants, List.nodup_cons, List.mem_singleton, List.not_mem_nil,
    not_false_iff, List.nodup_nil, and_true]
  intro h
  have := congrArg String.data h
  simp only [string_data_append] at this
  have h2 := List.append_inj_right this rfl
  simp at h2

lemma endVariants_len (q : String) :
    ∀ a ∈ endVariants q, a.length = q.data.dropLast.length + 1 := by
  intro a ha
  simp only [endVariants, List.mem_cons, List.mem_singleton, List.not_mem_nil,
    or_false] at ha
  rcases ha with h | h <;> subst h <;>
    rw [String.length_append] <;>
    simp [dropLastChar, String.length_mk, show ("G" : String).length = 1 from rfl,
      show ("L" : String).length = 1 from rfl]

lemma mem_prodKeys2 {xs ys : List String} {k : String} :
    k ∈ prodKeys2 xs ys ↔ ∃ a ∈ xs, ∃ b ∈ ys, a ++ b = k := by
  simp [prodKeys2]

lemma prodKeys2_len {xs ys : List String} {m n : Nat}
    (hx : ∀ a ∈ xs, a.length = m) (hy : ∀ b ∈ ys, b.length = n) :
    ∀ k ∈ prodKeys2 xs ys, k.length = m + n := by
  intro k hk
  obtain ⟨a, ha, b, hb, hab⟩ := mem_prodKeys2.mp hk
  rw [← hab, String.length_append, hx a ha, hy b hb]

lemma prodKeys2_nodup {xs ys : List String} {m : Nat} (hx : xs.Nodup) (hy : ys.Nodup)
    (hlx : ∀ a ∈ xs, a.length = m) : (prodKeys2 xs ys).Nodup := by
  unfold prodKeys2
  rw [List.nodup_flatMap]
  constructor
  · intro a _
    exact hy.map (fun b1 b2 h => by
      have := string_append_inj (a := a) (c := a) rfl h
      exact this.2)
  · rw [List.pairwise_iff_forall_sublist]
    intro a1 a2 hsub
    have h12 : a1 ∈ xs ∧ a2 ∈ xs := by
      constructor <;> apply hsub.subset <;> simp
    have hne : a1 ≠ a2 := by
      rcases List.nodup_iff_sublist.mp hx a1 with h
      intro he
      subst he
      exact h hsub
    intro k hk1 hk2
    simp only [List.mem_map] at hk1 hk2
    obtain ⟨b1, _, hb1⟩ := hk1
    obtain ⟨b2, _, hb2⟩ := hk2
    have heq : a1 ++ b1 = a2 ++ b2 := by rw [hb1, hb2]
    have hl : a1.length = a2.length := by rw [hlx a1 h12.1, hlx a2 h12.2]
    exact hne (string_append_inj hl heq).1

lemma foldl_addFull2 (keys : List String) (F : List (String × String))
    (H P : List (String × String × List Nat)) (M : List (String × List String))
    (metreName : String) (hf : ∀ k ∈ keys, F.any (fun kv => kv.1 = k) = false)
    (hnd : keys.Nodup) :
    keys.foldl (fun d k => AddFullPattern d k metreName) ⟨F, H, P, M⟩ =
      ⟨F ++ keys.map (fun k => (k, metreName)), H, P, M⟩ := by
  rw [foldl_addFull keys ⟨F, H, P, M⟩ metreName hf hnd]

lemma foldl_addHalf2 (keys : List String) (F : List (String × String))
    (H P : List (String × String × List Nat)) (M : List (String × List String))
    (metreName : String) (tags : List Nat)
    (hf : ∀ k ∈ keys, H.any (fun kv => kv.1 = k && kv.2.1 = metreName) = false)
    (hnd : keys.Nodup) :
    keys.foldl (fun d k => AddHalfPattern d k metreName tags) ⟨F, H, P, M⟩ =
      ⟨F, H ++ keys.map (fun k => (k, metreName, tags)), P, M⟩ := by
  rw [foldl_addHalf keys ⟨F, H, P, M⟩ metreName tags hf hnd]

lemma foldl_addPada2 (keys : List String) (F : List (String × String))
    (H P : List (String × String × List Nat)) (M : List (String × List String))
    (metreName : String) (tags : List Nat)
    (hf : ∀ k ∈ keys, P.any (fun kv => kv.1 = k && kv.2.1 = metreName) = false)
    (hnd : keys.Nodup) :
    keys.foldl (fun d k => AddPadaPattern d k metreName tags) ⟨F, H, P, M⟩ =
      ⟨F, H, P ++ keys.map (fun k => (k, metreName, tags)), M⟩ := by
  rw [foldl_addPada keys ⟨F, H, P, M⟩ metreName tags hf hnd]

/-- C6: when the same metre name (or the same expanded full-verse key) recurs
during database construction, the first definition wins: a later
`_AddPatternForMetre` with a name already present leaves the registry
unchanged, the first definition is the one recorded, and a later
`_AddFullPattern` with a key already present leaves the full-pattern index
unchanged; all three operations are total, so loading continues without
raising. -/
theorem first_definition_wins :
    (∀ (db : MetricalData) (metreName : String) (ps : List String),
      hasMetre db metreName = true → AddPatternForMetre db metreName ps = db) ∧
    (∀ (db : MetricalData) (metreName : String) (ps : List String),
      hasMetre db metreName = false →
        GetPattern (AddPatternForMetre db metreName ps) metreName = some ps) ∧
    (∀ (db : MetricalData) (pat metreName : String),
      hasFullKey db pat = true → AddFullPattern db pat metreName = db) := by
  refine ⟨?_, ?_, ?_⟩
  · intro db n ps h
    simp [AddPatternForMetre, h]
  · intro db n ps h
    simp only [AddPatternForMetre, h, Bool.false_eq_true, if_false, GetPattern]
    rw [List.find?_append]
    have h1 : db.patternForMetre.find? (fun kv => kv.1 = n) = none := by
      rw [List.find?_eq_none]
      intro kv hkv
      simp only [hasMetre] at h
      have := List.any_eq_false.mp h kv hkv
      simpa using this
    rw [h1]
    simp [List.find?]
  · intro db pat n h
    simp [AddFullPattern, h]

/-- C6 witness: a second definition of the same metre name leaves the first
recorded pattern in place. -/
theorem first_definition_wins_witness :
    (AddPatternForMetre (AddPatternForMetre emptyDb "m" ["GG"]) "m" ["LL"]
      = AddPatternForMetre emptyDb "m" ["GG"]) ∧
    (GetPattern (AddPatternForMetre emptyDb "m" ["GG"]) "m" = some ["GG"]) ∧
    (AddFullPattern (AddFullPattern emptyDb "GG" "m") "GG" "m2"
      = AddFullPattern emptyDb "GG" "m") :=
  ⟨first_definition_wins.1 (AddPatternForMetre emptyDb "m" ["GG"]) "m" ["LL"] (by decide),
   first_definition_wins.2.1 emptyDb "m" ["GG"] (by decide),
   first_definition_wins.2.2 (AddFullPattern emptyDb "GG" "m") "GG" "m2" (by decide)⟩

/-- C3: loading a sama-vṛtta catalog entry indexes exactly the two
end-variants of the cleaned pada pattern: all 16 four-fold combinations as
distinct full-verse keys, all 4 ordered pairs as half-verse keys tagged for
both halves {1, 2}, and each of the 2 variants as a pada key tagged for all
padas {1, 2, 3, 4}. -/
theorem AddSamavrttaPattern_index_spec (metreName eachPadaPattern : String) :
    (AddSamavrttaPattern emptyDb metreName eachPadaPattern).knownFullPatterns =
      (prodKeys2 (prodKeys2 (prodKeys2 (endVariants (cleanUpPattern eachPadaPattern))
          (endVariants (cleanUpPattern eachPadaPattern)))
          (endVariants (cleanUpPattern eachPadaPattern)))
          (endVariants (cleanUpPattern eachPadaPattern))).map (fun k => (k, metreName)) ∧
    (prodKeys2 (prodKeys2 (prodKeys2 (endVariants (cleanUpPattern eachPadaPattern))
        (endVariants (cleanUpPattern eachPadaPattern)))
        (endVariants (cleanUpPattern eachPadaPattern)))
        (endVariants (cleanUpPattern eachPadaPattern))).length = 16 ∧
    (prodKeys2 (prodKeys2 (prodKeys2 (endVariants (cleanUpPattern eachPadaPattern))
        (endVariants (cleanUpPattern eachPadaPattern)))
        (endVariants (cleanUpPattern eachPadaPattern)))
        (endVariants (cleanUpPattern eachPadaPattern))).Nodup ∧
    (AddSamavrttaPattern emptyDb metreName eachPadaPattern).knownHalfPatterns =
      (prodKeys2 (endVariants (cleanUpPattern eachPadaPattern))
        (endVariants (cleanUpPattern eachPadaPattern))).map
          (fun k => (k, metreName, [1, 2])) ∧
    (prodKeys2 (endVariants (cleanUpPattern eachPadaPattern))
      (endVariants (cleanUpPattern eachPadaPattern))).length = 4 ∧
    (prodKeys2 (endVariants (cleanUpPattern eachPadaPattern))
      (endVariants (cleanUpPattern eachPadaPattern))).Nodup ∧
    (AddSamavrttaPattern emptyDb metreName eachPadaPattern).knownPadaPatterns =
      (endVariants (cleanUpPattern eachPadaPattern)).map
        (fun k => (k, metreName, [1, 2, 3, 4])) ∧
    (endVariants (cleanUpPattern eachPadaPattern)).length = 2 ∧
    (endVariants (cleanUpPattern eachPadaPattern)).Nodup := by
  have hnd1 : (endVariants (cleanUpPattern eachPadaPattern)).Nodup := endVariants_nodup _
  have hlen1 := endVariants_len (cleanUpPattern eachPadaPattern)
  have hnd2 := prodKeys2_nodup hnd1 hnd1 hlen1
  have hlen2 := prodKeys2_len hlen1 hlen1
  have hnd3 := prodKeys2_nodup hnd2 hnd1 hlen2
  have hlen3 := prodKeys2_len hlen2 hlen1
  have hnd4 := prodKeys2_nodup hnd3 hnd1 hlen3
  have hdb : AddSamavrttaPattern emptyDb metreName eachPadaPattern =
      ⟨(prodKeys2 (prodKeys2 (prodKeys2 (endVariants (cleanUpPattern eachPadaPattern))
          (endVariants (cleanUpPattern eachPadaPattern)))
          (endVariants (cleanUpPattern eachPadaPattern)))
          (endVariants (cleanUpPattern eachPadaPattern))).map (fun k => (k, metreName)),
       (prodKeys2 (endVariants (cleanUpPattern eachPadaPattern))
         (endVariants (cleanUpPattern eachPadaPattern))).map
           (fun k => (k, metreName, [1, 2])),
       (endVariants (cleanUpPattern eachPadaPattern)).map
         (fun k => (k, metreName, [1, 2, 3, 4])),
       [(metreName, [cleanUpPattern eachPadaPattern, cleanUpPattern eachPadaPattern,
         cleanUpPattern eachPadaPattern, cleanUpPattern eachPadaPattern])]⟩ := by
    simp only [AddSamavrttaPattern]
    generalize cleanUpPattern eachPadaPattern = q
    have hnd1q : (endVariants q).Nodup := endVariants_nodup q
    have hlen1q := endVariants_len q
    have hnd2q := prodKeys2_nodup hnd1q hnd1q hlen1q
    have hlen2q := prodKeys2_len hlen1q hlen1q
    have hnd3q := prodKeys2_nodup hnd2q hnd1q hlen2q
    have hlen3q := prodKeys2_len hlen2q hlen1q
    have hnd4q := prodKeys2_nodup hnd3q hnd1q hlen3q
    rw [show AddPatternForMetre emptyDb metreName [q, q, q, q]
        = (⟨[], [], [], [(metreName, [q, q, q, q])]⟩ : MetricalData) from by
      simp [AddPatternForMetre, hasMetre, emptyDb]]
    rw [foldl_addFull2 _ [] [] [] _ metreName (fun k _ => rfl) hnd4q]
    rw [foldl_addHalf2 _ _ [] [] _ metreName [1, 2] (fun k _ => rfl) hnd2q]
    rw [foldl_addPada2 _ _ _ [] _ metreName [1, 2, 3, 4] (fun k _ => rfl) hnd1q]
    simp
  refine ⟨by rw [hdb], rfl, hnd4, by rw [hdb], rfl, hnd2, by rw [hdb], rfl, hnd1⟩

lemma anyKey_map_false {keys : List String} {metreName : String} {tags : List Nat}
    {k : String} (h : ∀ k1 ∈ keys, k1 ≠ k) :
    (keys.map (fun k1 => (k1, metreName, tags))).any
      (fun kv => kv.1 = k && kv.2.1 = metreName) = false := by
  rw [List.any_eq_false]
  intro kv hkv
  obtain ⟨k1, hk1, rfl⟩ := List.mem_map.mp hkv
  simp [h k1 hk1]

lemma singleton_len (q : String) : ∀ a ∈ [q], a.length = q.length := by
  intro a ha
  simp only [List.mem_singleton] at ha
  rw [ha]

/-- C7: loading a viṣama-vṛtta catalog entry expands only padas 2 and 4 into
end-variants (padas 1 and 3 contribute their single cleaned pattern); the
full-verse index receives exactly the 4 keys of the product of the four
variant sets; half-verse keys are computed separately for the first half
(tagged {1}) and the second half (tagged {2}); and each pada pattern is
indexed strictly under its own role 1, 2, 3 or 4.  The hypotheses state that
the entry's key sets do not accidentally coincide across roles. -/
theorem AddVishamavrttaPattern_index_spec (metreName pa pb pc pd : String)
    (hHalf : ∀ k1 ∈ prodKeys2 [cleanUpPattern pa] (endVariants (cleanUpPattern pb)),
      ∀ k2 ∈ prodKeys2 [cleanUpPattern pc] (endVariants (cleanUpPattern pd)), k1 ≠ k2)
    (hP1 : ∀ k ∈ endVariants (cleanUpPattern pb), k ≠ cleanUpPattern pa)
    (hP2 : cleanUpPattern pc ≠ cleanUpPattern pa ∧
      cleanUpPattern pc ∉ endVariants (cleanUpPattern pb))
    (hP3 : ∀ k ∈ endVariants (cleanUpPattern pd), k ≠ cleanUpPattern pa ∧
      k ∉ endVariants (cleanUpPattern pb) ∧ k ≠ cleanUpPattern pc) :
    (AddVishamavrttaPattern emptyDb metreName pa pb pc pd).knownFullPatterns =
      (prodKeys2 (prodKeys2 (prodKeys2 [cleanUpPattern pa]
          (endVariants (cleanUpPattern pb))) [cleanUpPattern pc])
          (endVariants (cleanUpPattern pd))).map (fun k => (k, metreName)) ∧
    (prodKeys2 (prodKeys2 (prodKeys2 [cleanUpPattern pa]
        (endVariants (cleanUpPattern pb))) [cleanUpPattern pc])
        (endVariants (cleanUpPattern pd))).length = 4 ∧
    (prodKeys2 (prodKeys2 (prodKeys2 [cleanUpPattern pa]
        (endVariants (cleanUpPattern pb))) [cleanUpPattern pc])
        (endVariants (cleanUpPattern pd))).Nodup ∧
    (AddVishamavrttaPattern emptyDb metreName pa pb pc pd).knownHalfPatterns =
      (prodKeys2 [cleanUpPattern pa] (endVariants (cleanUpPattern pb))).map
        (fun k => (k, metreName, [1])) ++
      (prodKeys2 [cleanUpPattern pc] (endVariants (cleanUpPattern pd))).map
        (fun k => (k, metreName, [2])) ∧
    (AddVishamavrttaPattern emptyDb metreName pa pb pc pd).knownPadaPatterns =
      [(cleanUpPattern pa, metreName, [1])] ++
      (endVariants (cleanUpPattern pb)).map (fun k => (k, metreName, [2])) ++
      [(cleanUpPattern pc, metreName, [3])] ++
      (endVariants (cleanUpPattern pd)).map (fun k => (k, metreName, [4])) := by
  have hndB : (endVariants (cleanUpPattern pb)).Nodup := endVariants_nodup _
  have hndD : (endVariants (cleanUpPattern pd)).Nodup := endVariants_nodup _
  have hlenA := singleton_len (cleanUpPattern pa)
  have hlenC := singleton_len (cleanUpPattern pc)
  have hlenB := endVariants_len (cleanUpPattern pb)
  have hlenD := endVariants_len (cleanUpPattern pd)
  have hndAB := prodKeys2_nodup (List.nodup_singleton (cleanUpPattern pa)) hndB hlenA
  have hlenAB := prodKeys2_len hlenA hlenB
  have hndABC := prodKeys2_nodup hndAB (List.nodup_singleton (cleanUpPattern pc)) hlenAB
  have hlenABC := prodKeys2_len hlenAB hlenC
  have hndFull := prodKeys2_nodup hndABC hndD hlenABC
  have hndCD := prodKeys2_nodup (List.nodup_singleton (cleanUpPattern pc)) hndD hlenC
  have hdb : AddVishamavrttaPattern emptyDb metreName pa pb pc pd =
      ⟨(prodKeys2 (prodKeys2 (prodKeys2 [cleanUpPattern pa]
          (endVariants (cleanUpPattern pb))) [cleanUpPattern pc])
          (endVariants (cleanUpPattern pd))).map (fun k => (k, metreName)),
       (prodKeys2 [cleanUpPattern pa] (endVariants (cleanUpPattern pb))).map
         (fun k => (k, metreName, [1])) ++
       (prodKeys2 [cleanUpPattern pc] (endVariants (cleanUpPattern pd))).map
         (fun k => (k, metreName, [2])),
       [(cleanUpPattern pa, metreName, [1])] ++
       (endVariants (cleanUpPattern pb)).map (fun k => (k, metreName, [2])) ++
       [(cleanUpPattern pc, metreName, [3])] ++
       (endVariants (cleanUpPattern pd)).map (fun k => (k, metreName, [4])),
       [(metreName, [cleanUpPattern pa, cleanUpPattern pb, cleanUpPattern pc,
         cleanUpPattern pd])]⟩ := by
    simp only [AddVishamavrttaPattern]
    rw [show AddPatternForMetre emptyDb metreName
        [cleanUpPattern pa, cleanUpPattern pb, cleanUpPattern pc, cleanUpPattern pd]
        = (⟨[], [], [], [(metreName, [cleanUpPattern pa, cleanUpPattern pb,
            cleanUpPattern pc, cleanUpPattern pd])]⟩ : MetricalData) from by
      simp [AddPatternForMetre, hasMetre, emptyDb]]
    rw [foldl_addFull2 _ [] [] [] _ metreName (fun k _ => rfl) hndFull]
    rw [foldl_addHalf2 _ _ [] [] _ metreName [1] (fun k _ => rfl) hndAB]
    rw [foldl_addHalf2 _ _ _ [] _ metreName [2] ?freshH2 hndCD]
    rw [foldl_addPada2 _ _ _ [] _ metreName [1] (fun k _ => rfl) (List.nodup_singleton _)]
    rw [foldl_addPada2 _ _ _ _ _ metreName [2] ?freshPB hndB]
    rw [foldl_addPada2 _ _ _ _ _ metreName [3] ?freshPC (List.nodup_singleton _)]
    rw [foldl_addPada2 _ _ _ _ _ metreName [4] ?freshPD hndD]
    case freshH2 =>
      intro k hk
      simp only [List.nil_append]
      exact anyKey_map_false (fun k1 hk1 => hHalf k1 hk1 k hk)
    case freshPB =>
      intro k hk
      simp only [List.nil_append]
      exact anyKey_map_false (fun k1 hk1 => by
        simp only [List.mem_singleton] at hk1
        subst hk1
        exact (hP1 k hk).symm)
    case freshPC =>
      intro k hk
      simp only [List.mem_singleton] at hk
      subst hk
      simp only [List.nil_append, List.any_append, Bool.or_eq_false_iff]
      constructor
      · exact anyKey_map_false (fun k1 hk1 => by
          simp only [List.mem_singleton] at hk1
          subst hk1
          exact hP2.1.symm)
      · exact anyKey_map_false (fun k1 hk1 => fun he => hP2.2 (he ▸ hk1))
    case freshPD =>
      intro k hk
      simp only [List.nil_append, List.any_append, Bool.or_eq_false_iff]
      refine ⟨⟨?_, ?_⟩, ?_⟩
      · exact anyKey_map_false (fun k1 hk1 => by
          simp only [List.mem_singleton] at hk1
          subst hk1
          exact ((hP3 k hk).1).symm)
      · exact anyKey_map_false (fun k1 hk1 => fun he => (hP3 k hk).2.1 (he ▸ hk1))
      · exact anyKey_map_false (fun k1 hk1 => by
          simp only [List.mem_singleton] at hk1
          subst hk1
          exact ((hP3 k hk).2.2).symm)
    simp
  refine ⟨by rw [hdb], rfl, hndFull, by rw [hdb], by rw [hdb]⟩

/-- C7 witness at a concrete viṣama entry with non-coinciding key sets. -/
theorem AddVishamavrttaPattern_index_spec_witness :
    (AddVishamavrttaPattern emptyDb "v" "LLL" "GG" "GGG" "LG").knownFullPatterns =
      (prodKeys2 (prodKeys2 (prodKeys2 [cleanUpPattern "LLL"]
          (endVariants (cleanUpPattern "GG"))) [cleanUpPattern "GGG"])
          (endVariants (cleanUpPattern "LG"))).map (fun k => (k, "v")) ∧
    (prodKeys2 (prodKeys2 (prodKeys2 [cleanUpPattern "LLL"]
        (endVariants (cleanUpPattern "GG"))) [cleanUpPattern "GGG"])
        (endVariants (cleanUpPattern "LG"))).length = 4 ∧
    (prodKeys2 (prodKeys2 (prodKeys2 [cleanUpPattern "LLL"]
        (endVariants (cleanUpPattern "GG"))) [cleanUpPattern "GGG"])
        (endVariants (cleanUpPattern "LG"))).Nodup ∧
    (AddVishamavrttaPattern emptyDb "v" "LLL" "GG" "GGG" "LG").knownHalfPatterns =
      (prodKeys2 [cleanUpPattern "LLL"] (endVariants (cleanUpPattern "GG"))).map
        (fun k => (k, "v", [1])) ++
      (prodKeys2 [cleanUpPattern "GGG"] (endVariants (cleanUpPattern "LG"))).map
        (fun k => (k, "v", [2])) ∧
    (AddVishamavrttaPattern emptyDb "v" "LLL" "GG" "GGG" "LG").knownPadaPatterns =
      [(cleanUpPattern "LLL", "v", [1])] ++
      (endVariants (cleanUpPattern "GG")).map (fun k => (k, "v", [2])) ++
      [(cleanUpPattern "GGG", "v", [3])] ++
      (endVariants (cleanUpPattern "LG")).map (fun k => (k, "v", [4])) :=
  AddVishamavrttaPattern_index_spec "v" "LLL" "GG" "GGG" "LG"
    (by decide) (by decide) (by decide) (by decide)

/-- Value of `int('1' + pattern.replace('L', '0').replace('G', '1'), 2)`:
a leading 1 bit followed by one bit per symbol, G = 1, L = 0. -/
def patternToNat (p : String) : Nat :=
  p.data.foldl (fun n c => 2 * n + (if c = 'G' then 1 else 0)) 1

/-- Lowercase hexadecimal digit, as Python `hex` produces. -/
def hexDigit (n : Nat) : Char :=
  if n < 10 then Char.ofNat (48 + n) else Char.ofNat (87 + n)

/-- Hex digits of `n`, most significant first (`hex(n)[2:]`); in Python 3
`hex` never ends in `'L'`, so the legacy strip in the source is a no-op.
Fuel-bounded structural recursion, adequate for fuel ≥ n. -/
def toHexAux : Nat → Nat → List Char
  | 0, _ => []
  | f + 1, n => if n < 16 then [hexDigit n] else toHexAux f (n / 16) ++ [hexDigit (n % 16)]

/-- `metrical_data.to_short_url`. -/
def to_short_url (p : String) : String :=
  String.mk (toHexAux (patternToNat p) (patternToNat p))

/-- Numeric value of one hexadecimal digit character, accepting both cases
as `int(s, 16)` does. -/
def hexVal (c : Char) : Nat :=
  if 48 ≤ c.toNat && c.toNat ≤ 57 then c.toNat - 48
  else if 97 ≤ c.toNat && c.toNat ≤ 102 then c.toNat - 87
  else if 65 ≤ c.toNat && c.toNat ≤ 70 then c.toNat - 55
  else 0

/-- `int(shorturl, 16)`. -/
def ofHex (s : String) : Nat := s.data.foldl (fun n c => 16 * n + hexVal c) 0

/-- The binary digits of `n` after the leading 1 (`bin(n)[3:]`), mapped to
G/L (`'1'`→G, `'0'`→L).  Fuel-bounded, adequate for fuel ≥ n. -/
def natToPattern : Nat → Nat → List Char
  | 0, _ => []
  | f + 1, n =>
    if n ≤ 1 then []
    else natToPattern f (n / 2) ++ [if n % 2 = 1 then 'G' else 'L']

/-- `metrical_data.from_short_url`. -/
def from_short_url (s : String) : String :=
  String.mk (natToPattern (ofHex s) (ofHex s))

lemma hexVal_hexDigit {d : Nat} (hd : d < 16) : hexVal (hexDigit d) = d := by
  interval_cases d <;> decide

lemma ofHexList_append (a : List Char) (c : Char) :
    (a ++ [c]).foldl (fun n x => 16 * n + hexVal x) 0 =
      16 * a.foldl (fun n x => 16 * n + hexVal x) 0 + hexVal c := by
  rw [List.foldl_append]
  rfl

lemma ofHex_toHexAux : ∀ (f n : Nat), n ≤ f →
    (toHexAux f n).foldl (fun m c => 16 * m + hexVal c) 0 = n := by
  intro f
  induction f with
  | zero =>
    intro n hn
    have : n = 0 := Nat.le_zero.mp hn
    subst this
    rfl
  | succ f ih =>
    intro n hn
    simp only [toHexAux]
    by_cases h16 : n < 16
    · rw [if_pos h16]
      simp only [List.foldl_cons, List.foldl_nil]
      rw [hexVal_hexDigit h16]
      omega
    · rw [if_neg h16]
      rw [ofHexList_append]
      have hn16 : 16 ≤ n := Nat.le_of_not_lt h16
      have hdiv : n / 16 ≤ f := by
        have h1 : n / 16 < n := Nat.div_lt_self (by omega) (by omega)
        omega
      rw [ih (n / 16) hdiv]
      rw [hexVal_hexDigit (Nat.mod_lt n (by omega))]
      omega

lemma patternToNat_pos : ∀ (l : List Char) (acc : Nat),
    acc ≤ l.foldl (fun n c => 2 * n + (if c = 'G' then 1 else 0)) acc := by
  intro l
  induction l with
  | nil => intro acc; exact Nat.le_refl acc
  | cons c rest ih =>
    intro acc
    simp only [List.foldl_cons]
    calc acc ≤ 2 * acc + (if c = 'G' then 1 else 0) := by split <;> omega
    _ ≤ _ := ih _

lemma patternToNatList_append (l : List Char) (c : Char) (acc : Nat) :
    (l ++ [c]).foldl (fun n x => 2 * n + (if x = 'G' then 1 else 0)) acc =
      2 * l.foldl (fun n x => 2 * n + (if x = 'G' then 1 else 0)) acc +
        (if c = 'G' then 1 else 0) := by
  rw [List.foldl_append]
  rfl

lemma natToPattern_roundtrip : ∀ (l : List Char),
    (∀ c ∈ l, c = 'L' ∨ c = 'G') → ∀ (f : Nat),
    l.foldl (fun n c => 2 * n + (if c = 'G' then 1 else 0)) 1 ≤ f →
    natToPattern f (l.foldl (fun n c => 2 * n + (if c = 'G' then 1 else 0)) 1) = l := by
  intro l
  induction l using List.reverseRecOn with
  | nil =>
    intro _ f hf
    simp only [List.foldl_nil] at hf ⊢
    match f, hf with
    | 0, hf => exact absurd hf (by omega)
    | f + 1, _ => simp [natToPattern]
  | append_singleton l c ih =>
    intro hvalid f hf
    rw [patternToNatList_append] at hf ⊢
    have hm := patternToNat_pos l 1
    set m := l.foldl (fun n x => 2 * n + (if x = 'G' then 1 else 0)) 1 with hmdef
    have hb : (if c = 'G' then 1 else 0) ≤ 1 := by split <;> omega
    have hn2 : 2 ≤ 2 * m + (if c = 'G' then 1 else 0) := by omega
    match f, hf with
    | 0, hf => exact absurd hf (by omega)
    | f + 1, hf =>
      simp only [natToPattern]
      rw [if_neg (by omega)]
      have hdiv : (2 * m + (if c = 'G' then 1 else 0)) / 2 = m := by
        split <;> omega
      have hmod : (2 * m + (if c = 'G' then 1 else 0)) % 2 =
          (if c = 'G' then 1 else 0) := by
        split <;> omega
      rw [hdiv, hmod]
      have hmf : m ≤ f := by omega
      rw [ih (fun x hx => hvalid x (by simp [hx])) f hmf]
      rcases hvalid c (by simp) with hc | hc <;> subst hc <;> simp

/-- C10: for every pattern string over {L, G} (the empty string included),
decoding the hexadecimal short url recovers the pattern exactly; in
particular the encoding is injective on its domain. -/
theorem short_url_round_trip (p : String) (hp : ∀ c ∈ p.data, c = 'L' ∨ c = 'G') :
    from_short_url (to_short_url p) = p := by
  unfold from_short_url to_short_url ofHex patternToNat
  simp only [String.mk]
  have h1 : (toHexAux (p.data.foldl (fun n c => 2 * n + (if c = 'G' then 1 else 0)) 1)
      (p.data.foldl (fun n c => 2 * n + (if c = 'G' then 1 else 0)) 1)).foldl
      (fun m c => 16 * m + hexVal c) 0 =
      p.data.foldl (fun n c => 2 * n + (if c = 'G' then 1 else 0)) 1 :=
    ofHex_toHexAux _ _ (Nat.le_refl _)
  rw [h1]
  rw [natToPattern_roundtrip p.data hp _ (Nat.le_refl _)]

/-- C10 witness. -/
theorem short_url_round_trip_witness :
    from_short_url (to_short_url "GLLG") = "GLLG" :=
  short_url_round_trip "GLLG" (by decide)

/-- `chandas.to_pattern_lines` (src/chandas/__init__.py):
`["".join(syllabize.to_weight_list(line)) for line in input_lines]` — one
pattern string per input line, blank lines included; a line that fails
syllabization propagates the `ValueError`. -/
def to_pattern_lines : List String → Except String (List String)
  | [] => .ok []
  | line :: rest =>
    match to_weight_list line with
    | .error e => .error e
    | .ok ws =>
      match to_pattern_lines rest with
      | .ok ps => .ok (String.join ws :: ps)
      | .error e => .error e

/-- Python `str.split('\n')`: every newline separates, empty pieces kept
(empty input gives one empty piece). -/
def splitNl : List Char → List (List Char)
  | [] => [[]]
  | c :: rest =>
    if c = '\n' then [] :: splitNl rest
    else
      match splitNl rest with
      | h :: t => (c :: h) :: t
      | [] => [[c]]

/-- ASCII whitespace stripped by Python `str.strip()`. -/
def isPySpace (c : Char) : Bool :=
  c = ' ' || c = '\t' || c = '\n' || c = '\r' || c.toNat = 11 || c.toNat = 12

/-- Python `str.strip()`. -/
def pyStrip (cs : List Char) : List Char :=
  ((cs.dropWhile isPySpace).reverse.dropWhile isPySpace).reverse

/-- The per-line loop of `MeterVerifier.get_pattern_from_text`: weight each
line, keep only the non-empty patterns. -/
def gpftAux : List (List Char) → Except String (List String)
  | [] => .ok []
  | l :: rest =>
    match to_weight_list (String.mk l) with
    | .error e => .error e
    | .ok ws =>
      match gpftAux rest with
      | .ok ps => .ok (if String.join ws ≠ "" then String.join ws :: ps else ps)
      | .error e => .error e

/-- `MeterVerifier.get_pattern_from_text` (src/rl_env/meter_verifier.py):
split on newlines, strip, drop blank lines, weight each line, keep non-empty
patterns. -/
def get_pattern_from_text (text : String) : Except String (List String) :=
  gpftAux (((splitNl text.data).map pyStrip).filter (fun l => l ≠ []))

/-- C5 counterexample: `chandas.to_pattern_lines` represents a blank input
line as an empty pattern string rather than dropping it, contradicting the
claim that blank lines are dropped by the pattern builder. -/
theorem to_pattern_lines_keeps_blank : to_pattern_lines [""] = Except.ok [""] := by
  decide

lemma splitNl_mem : ∀ (cs : List Char) (l : List Char), l ∈ splitNl cs →
    ∀ c ∈ l, c ∈ cs := by
  intro cs
  induction cs with
  | nil =>
    intro l hl c hc
    simp only [splitNl, List.mem_singleton] at hl
    subst hl
    exact absurd hc (List.not_mem_nil c)
  | cons x rest ih =>
    intro l hl c hc
    simp only [splitNl] at hl
    split at hl
    · rcases List.mem_cons.mp hl with h1 | h1
      · subst h1; exact absurd hc (List.not_mem_nil c)
      · exact List.mem_cons_of_mem x (ih l h1 c hc)
    · rename_i hx
      cases hs : splitNl rest with
      | nil =>
        rw [hs] at hl
        simp only [List.mem_singleton] at hl
        subst hl
        simp only [List.mem_singleton] at hc
        simp [hc]
      | cons h t =>
        rw [hs] at hl
        rcases List.mem_cons.mp hl with h1 | h1
        · subst h1
          rcases List.mem_cons.mp hc with h2 | h2
          · simp [h2]
          · have : h ∈ splitNl rest := by rw [hs]; simp
            exact List.mem_cons_of_mem x (ih h this c h2)
        · have : l ∈ splitNl rest := by rw [hs]; simp [h1]
          exact List.mem_cons_of_mem x (ih l this c hc)

lemma pyStrip_mem {cs l : List Char} (h : l = pyStrip cs) : ∀ c ∈ l, c ∈ cs := by
  subst h
  intro c hc
  simp only [pyStrip, List.mem_reverse] at hc
  have h1 := (List.dropWhile_sublist isPySpace (l := (cs.dropWhile isPySpace).reverse)).mem hc
  rw [List.mem_reverse] at h1
  exact (List.dropWhile_sublist isPySpace (l := cs)).mem h1

lemma clean_unsupported {cs : List Char}
    (h : ∀ c ∈ cs, isSupported c = false ∧ c ≠ omChar) : cleanChars cs = [] := by
  have hom : omExpand cs = cs := by
    induction cs with
    | nil => rfl
    | cons c rest ih =>
      simp only [omExpand, (h c (by simp)).2, if_neg]
      rw [ih (fun x hx => h x (by simp [hx]))]
      simp [(h c (by simp)).2]
  have hfil : filterSupported cs = [] := by
    rw [filterSupported, List.filter_eq_nil_iff]
    intro c hc
    simp [(h c hc).1]
  unfold cleanChars
  rw [hom, hfil]
  rfl

lemma to_weight_list_empty_clean {l : List Char} (h : cleanChars l = []) :
    to_weight_list (String.mk l) = .ok [] := by
  unfold to_weight_list get_syllables
  simp only [String.mk, h]
  rfl

/-- C5 amended: `to_pattern_lines` returns exactly one pattern per input
line (blank lines represented as empty patterns, not dropped), while
`MeterVerifier.get_pattern_from_text` never returns an empty pattern, maps
empty text to an empty pattern list, and maps text consisting only of
unsupported characters (punctuation, whitespace) to an empty pattern list,
without raising. -/
theorem pattern_builder_spec :
    (∀ (lines : List String) (ps : List String),
      to_pattern_lines lines = Except.ok ps → ps.length = lines.length) ∧
    (get_pattern_from_text "" = Except.ok []) ∧
    (∀ (text : String) (ps : List String),
      get_pattern_from_text text = Except.ok ps → "" ∉ ps) ∧
    (∀ text : String, (∀ c ∈ text.data, isSupported c = false ∧ c ≠ omChar) →
      get_pattern_from_text text = Except.ok []) := by
  refine ⟨?_, by decide, ?_, ?_⟩
  · intro lines
    induction lines with
    | nil =>
      intro ps h
      simp only [to_pattern_lines, Except.ok.injEq] at h
      subst h
      rfl
    | cons line rest ih =>
      intro ps h
      simp only [to_pattern_lines] at h
      split at h
      · exact Except.noConfusion h
      · split at h
        · rename_i ps2 hps2
          simp only [Except.ok.injEq] at h
          subst h
          simp [ih ps2 hps2]
        · exact Except.noConfusion h
  · intro text ps h
    unfold get_pattern_from_text at h
    revert ps h
    generalize ((splitNl text.data).map pyStrip).filter (fun l => l ≠ []) = ls
    induction ls with
    | nil =>
      intro ps h
      simp only [gpftAux, Except.ok.injEq] at h
      subst h
      exact List.not_mem_nil ""
    | cons l rest ih =>
      intro ps h
      simp only [gpftAux] at h
      split at h
      · exact Except.noConfusion h
      · rename_i ws hws
        split at h
        · rename_i ps2 hps2
          simp only [Except.ok.injEq] at h
          subst h
          split
          · rename_i hne
            intro hmem
            rcases List.mem_cons.mp hmem with h1 | h1
            · exact hne h1.symm
            · exact ih ps2 hps2 h1
          · exact ih ps2 hps2
        · exact Except.noConfusion h
  · intro text htext
    unfold get_pattern_from_text
    have hlines : ∀ l ∈ ((splitNl text.data).map pyStrip).filter (fun l => l ≠ []),
        cleanChars l = [] := by
      intro l hl
      obtain ⟨hl1, -⟩ := List.mem_filter.mp hl
      obtain ⟨l0, hl0, hstrip⟩ := List.mem_map.mp hl1
      apply clean_unsupported
      intro c hc
      exact htext c (splitNl_mem text.data l0 hl0 c (pyStrip_mem hstrip.symm c hc))
    revert hlines
    generalize ((splitNl text.data).map pyStrip).filter (fun l => l ≠ []) = ls
    induction ls with
    | nil => intro _; rfl
    | cons l rest ih =>
      intro hlines
      simp only [gpftAux]
      rw [to_weight_list_empty_clean (hlines l (by simp))]
      rw [ih (fun l2 hl2 => hlines l2 (by simp [hl2]))]
      rfl

/-- C5 witness: concrete instances of the amended claim. -/
theorem pattern_builder_spec_witness :
    (["L"] : List String).length = (["त"] : List String).length ∧
    "" ∉ (["L"] : List String) ∧
    get_pattern_from_text "। ॥" = Except.ok [] :=
  ⟨pattern_builder_spec.1 ["त"] ["L"] (by decide),
   pattern_builder_spec.2.2.1 "त\n।" ["L"] (by decide),
   pattern_builder_spec.2.2.2 "। ॥" (by decide)⟩

/-- Modelled from the spec: `get_graphemes` delegates segmentation to the
external ICU `BreakIterator` character instance (`icu` is not part of this
repository).  Its behaviour, as documented by the source doc string and the
test suite (`get_graphemes("बिक्रममेरोनामहो") == "बि क्र म मे रो ना म हो"`), is
modelled here: a cluster extends over dependent vowel signs, nukta, virāma,
yogavāha and accent marks, and a consonant directly after a virāma continues
the cluster. -/
def graphemeExtend (prev c : Char) : Bool :=
  isDV c || c = nukta || c = virAma || isYog c || isAcc c || (prev = virAma && isVy c)

/-- Continuation of one grapheme cluster after its base character. -/
def clusterAux : Nat → Char → List Char → List Char × List Char
  | 0, _, cs => ([], cs)
  | _ + 1, _, [] => ([], [])
  | f + 1, prev, c :: rest =>
    if graphemeExtend prev c then
      let p := clusterAux f c rest
      (c :: p.1, p.2)
    else ([], c :: rest)

/-- Grapheme clusters of a character sequence. -/
def get_graphemes_chars : Nat → List Char → List (List Char)
  | 0, _ => []
  | _ + 1, [] => []
  | f + 1, c :: rest =>
    let p := clusterAux rest.length c rest
    (c :: p.1) :: get_graphemes_chars f p.2

/-- `syllabize.get_graphemes`. -/
def get_graphemes (s : String) : List String :=
  (get_graphemes_chars s.data.length s.data).map (fun l => String.mk l)

/-- C9 counterexample: the grapheme segmentation of the fixture string is not
the claimed sequence ब,ि,क्,र,म,म,े,र,ो,ना,म,ह,ो (which moreover has 13
entries, not 12): dependent signs join their base and क्र forms one cluster,
as the source doc string and test assert. -/
theorem get_graphemes_fixture_not_claimed :
    get_graphemes "बिक्रममेरोनामहो" ≠
      ["ब", "ि", "क्", "र", "म", "म", "े", "र", "ो", "ना", "म", "ह", "ो"] ∧
    (get_graphemes "बिक्रममेरोनामहो").length ≠ 12 := by decide

/-- C9 amended: segmenting the fixture "बिक्रममेरोनामहो" into graphemes yields
the 8-element sequence बि, क्र, म, मे, रो, ना, म, हो documented in the source
and asserted by the test suite. -/
theorem get_graphemes_fixture :
    get_graphemes "बिक्रममेरोनामहो" = ["बि", "क्र", "म", "मे", "रो", "ना", "म", "हो"] ∧
    (get_graphemes "बिक्रममेरोनामहो").length = 8 := by decide

/-- Wildcard match of a compiled simple regex (characters `L`, `G` and `.`)
against a pattern string, anchored at both ends (`re.compile('^'+r+'$')`). -/
def matchesTemplate : List Char → List Char → Bool
  | [], [] => true
  | a :: t2, b :: p2 => (a = '.' || a = b) && matchesTemplate t2 p2
  | _, _ => false

/-- The Anuṣṭup half-verse regex of `_AddAnustup`: `'....LGG.' + '....LGL.'`. -/
def anustupHalfRegex : String := "....LGG." ++ "....LGL."

/-- The metre name registered by `_AddAnustup`. -/
def anustupName : String := "Anuṣṭup (Śloka)"

/-- The full-verse regex entry added by `_AddAnustup` to
`known_full_regexes` (`half_regex * 2`).  The catalog JSON sources and
`_AddAnustupExamples` contribute further entries, which cannot remove a
match of this one. -/
def knownFullRegexes : List (String × String) :=
  [(anustupHalfRegex ++ anustupHalfRegex, anustupName)]

/-- Modelled from the spec: the identifier module
(`chandas/svat/identify/identifier.py`) is not under `src/`.  Per spec §4.6,
with four pada patterns the identifier concatenates them, queries the
full-verse index and regex list, and reports every hit in the `exact`
bucket. -/
def identifyExactFull (regexes : List (String × String)) (patterns : List String) :
    List String :=
  if patterns.length = 4 then
    (regexes.filter (fun rn => matchesTemplate rn.1.data (String.join patterns).data)).map
      Prod.snd
  else []

/-- The four pada lines of Bhagavad-Gītā 4.7. -/
def gitaLines : List String :=
  ["यदा यदा हि धर्मस्य", "ग्लानिर्भवति भारत।", "अभ्युत्थानमधर्मस्य", "तदात्मानं सृजाम्यहम्॥"]

/-- C4: the pattern builder maps the four pada lines of Bhagavad-Gītā 4.7 to
four 8-symbol weight patterns, and the identifier reports "Anuṣṭup (Śloka)"
in the exact bucket for them. -/
theorem gita47_anustup :
    to_pattern_lines gitaLines =
      Except.ok ["LGLGLGGL", "GGLLLGLL", "GGGLLGGL", "LGGGLGLG"] ∧
    (∀ p ∈ ["LGLGLGGL", "GGLLLGLL", "GGGLLGGL", "LGGGLGLG"], String.length p = 8) ∧
    anustupName ∈ identifyExactFull knownFullRegexes
      ["LGLGLGGL", "GGLLLGLL", "GGGLLGGL", "LGGGLGLG"] := by decide

end Chandas
